import Mathlib

/-!
Shallow embedding of the MPlot plotting library (MPlot.h, MPlotSeriesData.h and
MPlotRectangle.h, the latter also carrying the inlined body of MPlotTools.cpp)
used to check the specification claims.  Real values (qreal) are modelled by the
rationals, heap pointers by indices into explicit lists, and null pointers by
Option.none.  Parts of the repository whose implementation files are not among
the sources (MPlotSeriesData.cpp, MPlot.cpp, the MPlotAxisScale class of
MPlotAxis.h and the constants of MPlotTools.h) are modelled from the spec and
from their doc comments in the headers; each such definition is marked
Modelled from the spec in its doc string.
-/

/-- Model of QPointF: a 2D point with rational coordinates. -/
structure QPointF where
  x : ℚ
  y : ℚ
deriving DecidableEq

/-- Model of QRectF, stored as QRectF(left, top, width, height). -/
structure QRectF where
  left : ℚ
  top : ℚ
  width : ℚ
  height : ℚ
deriving DecidableEq

/-- The null rectangle QRectF(). -/
def QRectF.nullRect : QRectF := ⟨0, 0, 0, 0⟩

/-- The QRectF(topLeft, bottomRight) constructor used for the rubber band. -/
def QRectF.ofPoints (p q : QPointF) : QRectF :=
  ⟨p.x, p.y, q.x - p.x, q.y - p.y⟩

/-- Qt qMin. -/
def qMin (a b : ℚ) : ℚ := if a < b then a else b

/-- Qt qAbs and C fabs. -/
def qAbs (a : ℚ) : ℚ := |a|

/-- QPointF manhattanLength: the sum of the absolute values of the coordinates. -/
def QPointF.manhattanLength (p : QPointF) : ℚ := qAbs p.x + qAbs p.y

/-- Difference of two points. -/
def QPointF.sub (p q : QPointF) : QPointF := ⟨p.x - q.x, p.y - q.y⟩

/-! Series data (MPlotSeriesData.h).  The implementation file
MPlotSeriesData.cpp is not among the sources, so the bodies of the
MPlotVectorSeriesData setters are modelled from their header doc comments. -/

/-- Model of MPlotVectorSeriesData: the X and Y values held in two vectors. -/
structure MPlotVectorSeriesData where
  xValues_ : List ℚ
  yValues_ : List ℚ
deriving DecidableEq

/-- Modelled from the spec: the body of MPlotVectorSeriesData.setValues is in the
missing MPlotSeriesData.cpp.  Its header doc comment reads: the two vectors must
have the same size; if not, this does nothing and returns false. -/
def MPlotVectorSeriesData.setValues (m : MPlotVectorSeriesData)
    (xValues yValues : List ℚ) : Bool × MPlotVectorSeriesData :=
  if xValues.length = yValues.length then
    (true, { xValues_ := xValues, yValues_ := yValues })
  else
    (false, m)

/-- Modelled from the spec: the body of MPlotVectorSeriesData.setXValue is in the
missing MPlotSeriesData.cpp.  Its header doc comment reads: index must be in
range for the current data, otherwise does nothing and returns false. -/
def MPlotVectorSeriesData.setXValue (m : MPlotVectorSeriesData) (index : ℤ)
    (xValue : ℚ) : Bool × MPlotVectorSeriesData :=
  if 0 ≤ index ∧ index < (m.xValues_.length : ℤ) then
    (true, { m with xValues_ := m.xValues_.set index.toNat xValue })
  else
    (false, m)

/-- Modelled from the spec: the body of MPlotVectorSeriesData.setYValue is in the
missing MPlotSeriesData.cpp.  Its header doc comment reads: index must be in
range for the current data, otherwise does nothing and returns false. -/
def MPlotVectorSeriesData.setYValue (m : MPlotVectorSeriesData) (index : ℤ)
    (yValue : ℚ) : Bool × MPlotVectorSeriesData :=
  if 0 ≤ index ∧ index < (m.yValues_.length : ℤ) then
    (true, { m with yValues_ := m.yValues_.set index.toNat yValue })
  else
    (false, m)

/-! Index accessors of MPlot (inline in MPlot.h) and of MPlotCursorTool
(MPlotTools.cpp). -/

/-- The C cast to unsigned int applied to a 32-bit int value. -/
def toUnsigned (i : ℤ) : ℕ := (i % (2 : ℤ) ^ 32).toNat

/-- Model of the MPlot fields used by the index accessors: the plot items, axes
and axis scales as lists of heap ids. -/
structure MPlotState where
  items_ : List ℕ
  axes_ : List ℕ
  axisScales_ : List ℕ
deriving DecidableEq

/-- MPlot.item, inline in MPlot.h: items_.at(index) when 0 <= index < count,
else the null pointer. -/
def MPlotState.item (p : MPlotState) (index : ℤ) : Option ℕ :=
  if 0 ≤ index ∧ index < (p.items_.length : ℤ) then p.items_.get? index.toNat
  else none

/-- MPlot.axis, inline in MPlot.h: the null pointer when
(unsigned)axisIndex >= (unsigned)axes_.count(), else axes_.at(axisIndex). -/
def MPlotState.axis (p : MPlotState) (axisIndex : ℤ) : Option ℕ :=
  if toUnsigned (p.axes_.length : ℤ) ≤ toUnsigned axisIndex then none
  else p.axes_.get? (toUnsigned axisIndex)

/-- MPlot.axisScale, inline in MPlot.h: same guard as MPlot.axis over the axis
scale list. -/
def MPlotState.axisScale (p : MPlotState) (axisScaleIndex : ℤ) : Option ℕ :=
  if toUnsigned (p.axisScales_.length : ℤ) ≤ toUnsigned axisScaleIndex then none
  else p.axisScales_.get? (toUnsigned axisScaleIndex)

/-! Axis scales.  The MPlotAxisScale class lives in MPlotAxis.h, which is not
among the sources; it is modelled from the spec glossary: an axis scale is the
mapping between a data-value range and pixel/drawing coordinates for one plot
axis. -/

/-- Model of MPlotAxisRange: a data range with a minimum and a maximum. -/
structure MPlotAxisRange where
  min : ℚ
  max : ℚ
deriving DecidableEq

/-- Modelled from the spec: an axis scale carries its data range, its drawing
range, its orientation and its autoscale flag. -/
structure MPlotAxisScale where
  dataMin : ℚ
  dataMax : ℚ
  drawingMin : ℚ
  drawingMax : ℚ
  orientationVertical : Bool
  autoScaleEnabled : Bool
deriving DecidableEq

/-- Modelled from the spec: mapDrawingToData is the linear mapping of a drawing
coordinate back to a data value. -/
def MPlotAxisScale.mapDrawingToData (a : MPlotAxisScale) (d : ℚ) : ℚ :=
  a.dataMin + (d - a.drawingMin) * (a.dataMax - a.dataMin) / (a.drawingMax - a.drawingMin)

/-- Modelled from the spec: setDataRange with applyPadding false replaces the
data range of the axis scale. -/
def MPlotAxisScale.setDataRange (a : MPlotAxisScale) (r : MPlotAxisRange) : MPlotAxisScale :=
  { a with dataMin := r.min, dataMax := r.max }

/-- Modelled from the spec: setAutoScaleEnabled sets the autoscale flag. -/
def MPlotAxisScale.setAutoScaleEnabled (a : MPlotAxisScale) (b : Bool) : MPlotAxisScale :=
  { a with autoScaleEnabled := b }

/-- A placeholder axis scale standing for a dereferenced invalid pointer. -/
def axisScaleNull : MPlotAxisScale := ⟨0, 1, 0, 1, false, false⟩

/-! The cursor tool (MPlotTools.cpp). -/

/-- Model of MPlotPoint: a cursor marker item with its data-space value and its
optional axis targets (indices into the plot axis scale list). -/
structure MPlotPoint where
  val : QPointF
  xAxisTarget : Option ℕ
  yAxisTarget : Option ℕ
deriving DecidableEq

/-- Model of MPlotCursorTool: the cursor list together with the function-static
counter activeCursor of mousePressEvent. -/
structure MPlotCursorTool where
  cursors_ : List MPlotPoint
  activeCursor : ℕ
deriving DecidableEq

/-- MPlotCursorTool.numCursors: cursors_.count(). -/
def MPlotCursorTool.numCursors (t : MPlotCursorTool) : ℕ := t.cursors_.length

/-- MPlotCursorTool.value: cursors_.at(cursorIndex).value() when the index is in
range, else QPointF(0,0). -/
def MPlotCursorTool.value (t : MPlotCursorTool) (cursorIndex : ℕ) : QPointF :=
  if cursorIndex < t.numCursors then
    ((t.cursors_.get? cursorIndex).getD ⟨⟨0, 0⟩, none, none⟩).val
  else ⟨0, 0⟩

/-- MPlotCursorTool.cursor: the cursor pointer when the index is in range, else
the null pointer. -/
def MPlotCursorTool.cursor (t : MPlotCursorTool) (cursorIndex : ℕ) : Option MPlotPoint :=
  if cursorIndex < t.numCursors then t.cursors_.get? cursorIndex
  else none

/-- Model of MPlotCursorTool.mousePressEvent for a press at drawing position pos.
The C line unsigned c = activeCursor % numCursors() takes a remainder by
numCursors(); with zero cursors this is a modulo by zero, which is undefined
behaviour, so the model returns none exactly there. -/
def MPlotCursorTool.mousePressEvent (t : MPlotCursorTool) (axes : List MPlotAxisScale)
    (leftButton : Bool) (pos : QPointF) : Option MPlotCursorTool :=
  if leftButton then
    if t.numCursors = 0 then none
    else
      let c := t.activeCursor % t.numCursors
      let cursor := (t.cursors_.get? c).getD ⟨⟨0, 0⟩, none, none⟩
      let y := match cursor.yAxisTarget with
        | some ai => ((axes.get? ai).getD axisScaleNull).mapDrawingToData pos.y
        | none => pos.y
      let x := match cursor.xAxisTarget with
        | some ai => ((axes.get? ai).getD axisScaleNull).mapDrawingToData pos.x
        | none => pos.x
      some { t with
        cursors_ := t.cursors_.set c { cursor with val := ⟨x, y⟩ },
        activeCursor := t.activeCursor + 1 }
  else some t

/-! The wheel zoomer tool (MPlotTools.cpp). -/

/-- The zoom factor computed by MPlotWheelZoomerTool.wheelEvent from the wheel
delta: F = 1 - qMin(zf * fabs(delta) / 120, 0.9), replaced by 1/F for a
negative delta. -/
def wheelZoomFactor (zf_ : ℚ) (delta : ℤ) : ℚ :=
  let F := 1 - qMin (zf_ * qAbs (delta : ℚ) / 120) (9 / 10)
  if delta < 0 then 1 / F else F

/-- The update applied to one target axis by MPlotWheelZoomerTool.wheelEvent:
newMin = dataPos + F (min - dataPos), newMax = dataPos + F (max - dataPos),
where dataPos maps the relevant drawing coordinate of the event position. -/
def wheelUpdateAxis (zf_ : ℚ) (delta : ℤ) (pos : QPointF) (axis : MPlotAxisScale) :
    MPlotAxisScale :=
  let F := wheelZoomFactor zf_ delta
  let drawingPos := if axis.orientationVertical then pos.y else pos.x
  let dataPos := axis.mapDrawingToData drawingPos
  let newMin := dataPos + F * (axis.dataMin - dataPos)
  let newMax := dataPos + F * (axis.dataMax - dataPos)
  axis.setDataRange ⟨newMin, newMax⟩

/-- Model of MPlotWheelZoomerTool.wheelEvent: the zoom update applied to every
target axis. -/
def MPlotWheelZoomerTool.wheelEvent (zf_ : ℚ) (targetAxes_ : List MPlotAxisScale)
    (delta : ℤ) (pos : QPointF) : List MPlotAxisScale :=
  targetAxes_.map (wheelUpdateAxis zf_ delta pos)

/-! The drag zoomer tool (MPlotTools.cpp).  The plot axis scales live in one
list; a tool refers to its target axes by index into that list, modelling the
pointers of targetAxes_. -/

/-- Modelled from the spec: MPLOT_RUBBERBAND_DEADZONE is defined in the missing
MPlotTools.h; only its value matters to nothing proved here, so it is fixed. -/
def MPLOT_RUBBERBAND_DEADZONE : ℚ := 6

/-- The mouse buttons distinguished by the tools. -/
inductive MouseButton where
  | left
  | right
  | other
deriving DecidableEq

/-- The fields of QGraphicsSceneMouseEvent read by the tools. -/
structure MouseEvent where
  button : MouseButton
  pos : QPointF
  scenePos : QPointF
  buttonDownPos : QPointF
  buttonDownScenePos : QPointF
deriving DecidableEq

/-- Model of MPlotDragZoomerTool: drag state flags, the stack of saved zoom
settings (head is the top of the stack) and the target axis indices. -/
structure MPlotDragZoomerTool where
  dragStarted_ : Bool
  dragInProgress_ : Bool
  oldZooms_ : List (List (ℕ × MPlotAxisRange))
  targetAxes_ : List ℕ
  selectionRect_ : QRectF
deriving DecidableEq

/-- Applies an update to the axis scale stored at index i, when present. -/
def setAxisAt (axes : List MPlotAxisScale) (i : ℕ)
    (f : MPlotAxisScale → MPlotAxisScale) : List MPlotAxisScale :=
  match axes.get? i with
  | some a => axes.set i (f a)
  | none => axes

/-- The foreach loop that calls setAutoScaleEnabled(b) on every target axis. -/
def setAutoScaleOnTargets (targets : List ℕ) (axes : List MPlotAxisScale)
    (b : Bool) : List MPlotAxisScale :=
  targets.foldl (fun acc i => setAxisAt acc i (fun a => a.setAutoScaleEnabled b)) axes

/-- Model of MPlotDragZoomerTool.mousePressEvent. -/
def dragMousePress (t : MPlotDragZoomerTool) (e : MouseEvent) : MPlotDragZoomerTool :=
  if e.button = MouseButton.left then { t with dragStarted_ := true } else t

/-- Model of MPlotDragZoomerTool.mouseMoveEvent: past the deadzone a started
drag becomes a drag in progress and autoscaling is disabled on the target axes;
while a drag is in progress the selection rectangle follows the mouse. -/
def dragMouseMove (t : MPlotDragZoomerTool) (axes : List MPlotAxisScale)
    (e : MouseEvent) : MPlotDragZoomerTool × List MPlotAxisScale :=
  let s :=
    if t.dragStarted_ then
      if (e.buttonDownScenePos.sub e.scenePos).manhattanLength > MPLOT_RUBBERBAND_DEADZONE then
        ({ t with dragInProgress_ := true, dragStarted_ := false },
         setAutoScaleOnTargets t.targetAxes_ axes false)
      else (t, axes)
    else (t, axes)
  if s.1.dragInProgress_ then
    ({ s.1 with selectionRect_ := QRectF.ofPoints e.buttonDownPos e.pos }, s.2)
  else s

/-- Modelled from the spec: mapDrawingToData applied to a whole drawing range
maps both endpoints into data space. -/
def MPlotAxisScale.mapDrawingToDataRange (a : MPlotAxisScale) (r : MPlotAxisRange) :
    MPlotAxisRange :=
  ⟨a.mapDrawingToData r.min, a.mapDrawingToData r.max⟩

/-- One iteration of the foreach loop of the left-button branch of
MPlotDragZoomerTool.mouseReleaseEvent: records the current data range of the
target axis and zooms it to the dragged drawing range. -/
def dragZoomStep (e : MouseEvent)
    (acc : List (ℕ × MPlotAxisRange) × List MPlotAxisScale) (i : ℕ) :
    List (ℕ × MPlotAxisRange) × List MPlotAxisScale :=
  match acc.2.get? i with
  | some axis =>
    let oldPair := (i, MPlotAxisRange.mk axis.dataMin axis.dataMax)
    let lo := if axis.orientationVertical then e.buttonDownPos.y else e.buttonDownPos.x
    let hi := if axis.orientationVertical then e.pos.y else e.pos.x
    let lo2 := if lo > hi then hi else lo
    let hi2 := if lo > hi then lo else hi
    let newRange := axis.mapDrawingToDataRange ⟨lo2, hi2⟩
    (acc.1 ++ [oldPair], acc.2.set i (axis.setDataRange newRange))
  | none => acc

/-- One iteration of the foreach loop of the right-button branch of
MPlotDragZoomerTool.mouseReleaseEvent: restores a saved range on an axis that
is still a target axis. -/
def dragRestoreStep (targets : List ℕ) (axes : List MPlotAxisScale)
    (p : ℕ × MPlotAxisRange) : List MPlotAxisScale :=
  if p.1 ∈ targets then setAxisAt axes p.1 (fun a => a.setDataRange p.2) else axes

/-- Model of MPlotDragZoomerTool.mouseReleaseEvent.  A left release after a drag
in progress saves the old ranges of all target axes on the zoom stack and zooms
them to the dragged rectangle; a right release outside a drag pops the stack and
restores the saved ranges on the axes still targeted, or re-enables autoscaling
on all target axes when the stack is empty. -/
def dragMouseRelease (t : MPlotDragZoomerTool) (axes : List MPlotAxisScale)
    (e : MouseEvent) : MPlotDragZoomerTool × List MPlotAxisScale :=
  let s :=
    if e.button = MouseButton.left then
      let t1 := { t with dragStarted_ := false, selectionRect_ := QRectF.nullRect }
      if t1.dragInProgress_ then
        let t2 := { t1 with dragInProgress_ := false }
        let res := t2.targetAxes_.foldl (dragZoomStep e) ([], axes)
        ({ t2 with oldZooms_ := res.1 :: t2.oldZooms_ }, res.2)
      else (t1, axes)
    else (t, axes)
  if ¬ s.1.dragInProgress_ ∧ e.button = MouseButton.right then
    match s.1.oldZooms_ with
    | oldZoomList :: rest =>
      ({ s.1 with oldZooms_ := rest },
       oldZoomList.foldl (dragRestoreStep s.1.targetAxes_) s.2)
    | [] =>
      (s.1, setAutoScaleOnTargets s.1.targetAxes_ s.2 true)
  else s

/-! The plot selector tool (MPlotTools.cpp).  The shape intersection test of the
click region against each item is GUI geometry; it enters the model as the
boolean list hits, one entry per plot item. -/

/-- The selection-relevant state of one plot item. -/
structure MPlotItemState where
  selectable : Bool
  isSelected : Bool
deriving DecidableEq

/-- Model of MPlotPlotSelectorTool: the selected item (none for the null
pointer) and the function-static counter selIndex of mousePressEvent. -/
structure MPlotPlotSelectorTool where
  selectedItem_ : Option ℕ
  selIndex : ℕ
deriving DecidableEq

/-- Sets the isSelected flag of the item at index i. -/
def setSelectedFlag (items : List MPlotItemState) (i : ℕ) (b : Bool) :
    List MPlotItemState :=
  match items.get? i with
  | some it => items.set i { it with isSelected := b }
  | none => items

/-- The filtered list selectedPossibilities of MPlotPlotSelectorTool
mousePressEvent: the indices of the selectable items whose shape intersects the
click region. -/
def selectedPossibilities (items : List MPlotItemState) (hits : List Bool) : List ℕ :=
  (List.range items.length).filter
    (fun i => (((items.get? i).getD ⟨false, false⟩).selectable && hits.getD i false))

/-- Model of MPlotPlotSelectorTool.mousePressEvent.  From the items in range of
the click one is chosen round-robin by selIndex; a new choice deselects the
previous item and selects the chosen one; no choice deselects the previous item
and clears selectedItem_. -/
def selectorMousePress (t : MPlotPlotSelectorTool) (items : List MPlotItemState)
    (hits : List Bool) : MPlotPlotSelectorTool × List MPlotItemState :=
  let poss := selectedPossibilities items hits
  let s : Option ℕ :=
    if poss.length > 0 then some (poss.getD (t.selIndex % poss.length) 0) else none
  let selIndexAfter := if poss.length > 0 then t.selIndex + 1 else t.selIndex
  match s with
  | some si =>
    if some si ≠ t.selectedItem_ then
      let items1 := match t.selectedItem_ with
        | some old => setSelectedFlag items old false
        | none => items
      ({ selectedItem_ := some si, selIndex := selIndexAfter },
       setSelectedFlag items1 si true)
    else ({ t with selIndex := selIndexAfter }, items)
  | none =>
    match t.selectedItem_ with
    | some old =>
      ({ selectedItem_ := none, selIndex := selIndexAfter },
       setSelectedFlag items old false)
    | none => ({ t with selIndex := selIndexAfter }, items)

/-! Deferred autoscaling (MPlot.h).  The bodies of scheduleDelayedAutoScale,
doDelayedAutoScale and onBoundsChanged are in the missing MPlot.cpp; they are
modelled from the spec and from the doc comments of MPlot.h: bounds changes only
schedule a deferred autoscale by raising autoScaleScheduled_, and the pending
recomputation runs once when control returns to the event loop, right before
the plot is re-drawn, or immediately when doDelayedAutoScale is called. -/

/-- Ghost-instrumented autoscale scheduling state of an MPlot: the scheduled
flag together with counters of performed recomputations and redraws. -/
structure AutoScaleMachine where
  autoScaleScheduled_ : Bool
  recomputeCount : ℕ
  redrawCount : ℕ
deriving DecidableEq

/-- Modelled from the spec: scheduleDelayedAutoScale requests a deferred
autoscale by raising the flag; it performs no recomputation itself. -/
def scheduleDelayedAutoScale (s : AutoScaleMachine) : AutoScaleMachine :=
  { s with autoScaleScheduled_ := true }

/-- Modelled from the spec: doDelayedAutoScale completes the pending autoscale
immediately, recomputing the axis range limits and clearing the flag. -/
def doDelayedAutoScale (s : AutoScaleMachine) : AutoScaleMachine :=
  { s with autoScaleScheduled_ := false, recomputeCount := s.recomputeCount + 1 }

/-- Modelled from the spec: onBoundsChanged, with autoscaling enabled, only
schedules the deferred autoscale. -/
def onBoundsChanged (s : AutoScaleMachine) : AutoScaleMachine :=
  scheduleDelayedAutoScale s

/-- Modelled from the spec: on return to the event loop the pending autoscale,
when one is scheduled, is completed right before the plot is re-drawn. -/
def returnToEventLoop (s : AutoScaleMachine) : AutoScaleMachine :=
  let s1 := if s.autoScaleScheduled_ then doDelayedAutoScale s else s
  { s1 with redrawCount := s1.redrawCount + 1 }

/-- The union of two closed intervals given by their endpoint pairs. -/
def intervalUnite (a b : ℚ × ℚ) : ℚ × ℚ := (min a.1 b.1, max a.2 b.2)

/-- Modelled from the spec: the autoscale recomputation fits the axis range to
the united bounding box of the plot items targeted at the axis.  Each plot item
contributes the extent of its data rectangle along the axis as an interval. -/
def autoScaleRange : List (ℚ × ℚ) → Option (ℚ × ℚ)
  | [] => none
  | r :: rs => some (rs.foldl intervalUnite r)

/-- Modelled from the spec: the recomputation performed for one axis scale with
autoscaling enabled sets the data range to the united extent of the items
targeted at that axis. -/
def doDelayedAutoScaleAxis (axis : MPlotAxisScale) (itemExtents : List (ℚ × ℚ)) :
    MPlotAxisScale :=
  if axis.autoScaleEnabled then
    match autoScaleRange itemExtents with
    | some r => axis.setDataRange ⟨r.1, r.2⟩
    | none => axis
  else axis

/-! The realtime model (MPlotSeriesData.h).  The bodies of the
MPlotRealtimeModel member functions are in the missing MPlotSeriesData.cpp;
they are modelled from the spec (min/max tracking for a sliding real-time data
window, with fast usually constant-time lookups of the min and max values) and
from the doc comments of the helper functions in the header: minMaxAddCheck
checks whether an added point is the new record holder, minMaxChangeCheckX and
minMaxChangeCheckY check whether a modified point loses a record holder or is a
new record holder, and searchMinIndex and searchMaxIndex do the linear
re-search.  The x and y queues are tracked independently, so the tracking is
modelled once over a single list with its two record-holder indices. -/

/-- Modelled from the spec: the linear search for the index of the smallest
value in a list, keeping the first extreme on ties. -/
def searchMinIndex : List ℚ → ℕ
  | [] => 0
  | [_] => 0
  | x :: y :: rest =>
    let j := searchMinIndex (y :: rest)
    if (y :: rest).getD j 0 < x then j + 1 else 0

/-- Modelled from the spec: the linear search for the index of the largest
value in a list, keeping the first extreme on ties. -/
def searchMaxIndex : List ℚ → ℕ
  | [] => 0
  | [_] => 0
  | x :: y :: rest =>
    let j := searchMaxIndex (y :: rest)
    if (y :: rest).getD j 0 > x then j + 1 else 0

/-- Modelled from the spec: appending a value at the back of a tracked list
(one half of insertPointBack) followed by minMaxAddCheck at the new index. -/
def trackAppend (l : List ℚ) (mi ma : ℕ) (v : ℚ) : List ℚ × ℕ × ℕ :=
  let idx := l.length
  let l2 := l ++ [v]
  if l2.length = 1 then (l2, idx, idx)
  else
    (l2, if v < l.getD mi 0 then idx else mi, if v > l.getD ma 0 then idx else ma)

/-- Modelled from the spec: prepending a value at the front of a tracked list
(one half of insertPointFront): the tracked indices shift by one, then
minMaxAddCheck runs at index 0. -/
def trackPrepend (l : List ℚ) (mi ma : ℕ) (v : ℚ) : List ℚ × ℕ × ℕ :=
  let l2 := v :: l
  if l2.length = 1 then (l2, 0, 0)
  else
    (l2, if v < l2.getD (mi + 1) 0 then 0 else mi + 1,
         if v > l2.getD (ma + 1) 0 then 0 else ma + 1)

/-- Modelled from the spec: removing the front value of a tracked list (one
half of removePointFront): the tracked indices shift back by one, and a removed
record holder is replaced by a linear re-search. -/
def trackRemoveFront (l : List ℚ) (mi ma : ℕ) : List ℚ × ℕ × ℕ :=
  match l with
  | [] => ([], mi, ma)
  | _ :: rest =>
    (rest, if mi = 0 then searchMinIndex rest else mi - 1,
           if ma = 0 then searchMaxIndex rest else ma - 1)

/-- Modelled from the spec: removing the back value of a tracked list (one half
of removePointBack): a removed record holder is replaced by a linear
re-search. -/
def trackRemoveBack (l : List ℚ) (mi ma : ℕ) : List ℚ × ℕ × ℕ :=
  match l with
  | [] => ([], mi, ma)
  | _ :: _ =>
    let rest := l.dropLast
    (rest, if mi = rest.length then searchMinIndex rest else mi,
           if ma = rest.length then searchMaxIndex rest else ma)

/-- Modelled from the spec: minMaxChangeCheck for one tracked list: the value at
index is replaced; a record holder modified away from its record triggers a
linear re-search, then the new value is checked as a new record holder. -/
def trackSetValue (l : List ℚ) (mi ma : ℕ) (index : ℕ) (v : ℚ) : List ℚ × ℕ × ℕ :=
  if index < l.length then
    let oldVal := l.getD index 0
    let l2 := l.set index v
    let ma1 := if index = ma ∧ v < oldVal then searchMaxIndex l2 else ma
    let mi1 := if index = mi ∧ v > oldVal then searchMinIndex l2 else mi
    (l2, if v < l2.getD mi1 0 then index else mi1,
         if v > l2.getD ma1 0 then index else ma1)
  else (l, mi, ma)

/-- Model of MPlotRealtimeModel: the two data queues with the four tracked
record-holder indices. -/
structure MPlotRealtimeModel where
  xval_ : List ℚ
  yval_ : List ℚ
  minXIndex_ : ℕ
  maxXIndex_ : ℕ
  minYIndex_ : ℕ
  maxYIndex_ : ℕ
deriving DecidableEq

/-- The empty realtime model. -/
def MPlotRealtimeModel.empty : MPlotRealtimeModel := ⟨[], [], 0, 0, 0, 0⟩

/-- MPlotRealtimeModel.count. -/
def MPlotRealtimeModel.count (m : MPlotRealtimeModel) : ℕ := m.xval_.length

/-- The tracked minimum x value, xval_.at(minXIndex_). -/
def MPlotRealtimeModel.minX (m : MPlotRealtimeModel) : ℚ := m.xval_.getD m.minXIndex_ 0

/-- The tracked maximum x value, xval_.at(maxXIndex_). -/
def MPlotRealtimeModel.maxX (m : MPlotRealtimeModel) : ℚ := m.xval_.getD m.maxXIndex_ 0

/-- The tracked minimum y value, yval_.at(minYIndex_). -/
def MPlotRealtimeModel.minY (m : MPlotRealtimeModel) : ℚ := m.yval_.getD m.minYIndex_ 0

/-- The tracked maximum y value, yval_.at(maxYIndex_). -/
def MPlotRealtimeModel.maxY (m : MPlotRealtimeModel) : ℚ := m.yval_.getD m.maxYIndex_ 0

/-- Modelled from the spec: insertPointBack appends to both queues and runs
minMaxAddCheck at the new back index. -/
def MPlotRealtimeModel.insertPointBack (m : MPlotRealtimeModel) (x y : ℚ) :
    MPlotRealtimeModel :=
  let rx := trackAppend m.xval_ m.minXIndex_ m.maxXIndex_ x
  let ry := trackAppend m.yval_ m.minYIndex_ m.maxYIndex_ y
  ⟨rx.1, ry.1, rx.2.1, rx.2.2, ry.2.1, ry.2.2⟩

/-- Modelled from the spec: insertPointFront prepends to both queues, shifts
the tracked indices and runs minMaxAddCheck at index 0. -/
def MPlotRealtimeModel.insertPointFront (m : MPlotRealtimeModel) (x y : ℚ) :
    MPlotRealtimeModel :=
  let rx := trackPrepend m.xval_ m.minXIndex_ m.maxXIndex_ x
  let ry := trackPrepend m.yval_ m.minYIndex_ m.maxYIndex_ y
  ⟨rx.1, ry.1, rx.2.1, rx.2.2, ry.2.1, ry.2.2⟩

/-- Modelled from the spec: removePointFront fails on an empty model, otherwise
removes the front point of both queues and re-tracks. -/
def MPlotRealtimeModel.removePointFront (m : MPlotRealtimeModel) :
    Bool × MPlotRealtimeModel :=
  if m.xval_.isEmpty then (false, m)
  else
    let rx := trackRemoveFront m.xval_ m.minXIndex_ m.maxXIndex_
    let ry := trackRemoveFront m.yval_ m.minYIndex_ m.maxYIndex_
    (true, ⟨rx.1, ry.1, rx.2.1, rx.2.2, ry.2.1, ry.2.2⟩)

/-- Modelled from the spec: removePointBack fails on an empty model, otherwise
removes the back point of both queues and re-tracks. -/
def MPlotRealtimeModel.removePointBack (m : MPlotRealtimeModel) :
    Bool × MPlotRealtimeModel :=
  if m.xval_.isEmpty then (false, m)
  else
    let rx := trackRemoveBack m.xval_ m.minXIndex_ m.maxXIndex_
    let ry := trackRemoveBack m.yval_ m.minYIndex_ m.maxYIndex_
    (true, ⟨rx.1, ry.1, rx.2.1, rx.2.2, ry.2.1, ry.2.2⟩)

/-- Modelled from the spec: setData on column 0 replaces an x value in range
and runs minMaxChangeCheckX. -/
def MPlotRealtimeModel.setDataX (m : MPlotRealtimeModel) (index : ℕ) (v : ℚ) :
    MPlotRealtimeModel :=
  let rx := trackSetValue m.xval_ m.minXIndex_ m.maxXIndex_ index v
  ⟨rx.1, m.yval_, rx.2.1, rx.2.2, m.minYIndex_, m.maxYIndex_⟩

/-- Modelled from the spec: setData on column 1 replaces a y value in range
and runs minMaxChangeCheckY. -/
def MPlotRealtimeModel.setDataY (m : MPlotRealtimeModel) (index : ℕ) (v : ℚ) :
    MPlotRealtimeModel :=
  let ry := trackSetValue m.yval_ m.minYIndex_ m.maxYIndex_ index v
  ⟨m.xval_, ry.1, m.minXIndex_, m.maxXIndex_, ry.2.1, ry.2.2⟩

/-- The operations of the realtime model named by the claim. -/
inductive RTOp where
  | insertPointFront (x y : ℚ)
  | insertPointBack (x y : ℚ)
  | removePointFront
  | removePointBack
  | setDataX (index : ℕ) (v : ℚ)
  | setDataY (index : ℕ) (v : ℚ)
deriving DecidableEq

/-- Applies one operation to the realtime model. -/
def MPlotRealtimeModel.applyOp (m : MPlotRealtimeModel) : RTOp → MPlotRealtimeModel
  | RTOp.insertPointFront x y => m.insertPointFront x y
  | RTOp.insertPointBack x y => m.insertPointBack x y
  | RTOp.removePointFront => m.removePointFront.2
  | RTOp.removePointBack => m.removePointBack.2
  | RTOp.setDataX i v => m.setDataX i v
  | RTOp.setDataY i v => m.setDataY i v

/-- Runs a sequence of operations from the empty realtime model. -/
def MPlotRealtimeModel.runOps (ops : List RTOp) : MPlotRealtimeModel :=
  ops.foldl MPlotRealtimeModel.applyOp MPlotRealtimeModel.empty

/-- The tracked bounding rectangle of the realtime model, per the boundingRect
doc comment of MPlotSeriesData.h: QRectF(minX, minY, maxX-minX, maxY-minY),
read from the tracked record-holder indices. -/
def MPlotRealtimeModel.boundingRect (m : MPlotRealtimeModel) : QRectF :=
  if m.count = 0 then QRectF.nullRect
  else ⟨m.minX, m.minY, m.maxX - m.minX, m.maxY - m.minY⟩

/-- The smallest value of a list, by linear search (0 for the empty list). -/
def listMin : List ℚ → ℚ
  | [] => 0
  | x :: xs => xs.foldl min x

/-- The largest value of a list, by linear search (0 for the empty list). -/
def listMax : List ℚ → ℚ
  | [] => 0
  | x :: xs => xs.foldl max x

/-- The bounding rectangle computed by a linear search over all stored points,
per the base class doc comment of MPlotAbstractSeriesData.boundingRect. -/
def searchBoundingRect (xs ys : List ℚ) : QRectF :=
  ⟨listMin xs, listMin ys, listMax xs - listMin xs, listMax ys - listMin ys⟩

/-- The record-holder invariant of a minimum tracker: the tracked index is a
valid index whose value bounds every stored value from below. -/
def TracksMin (l : List ℚ) (mi : ℕ) : Prop :=
  mi < l.length ∧ ∀ j, j < l.length → l.getD mi 0 ≤ l.getD j 0

/-- The record-holder invariant of a maximum tracker: the tracked index is a
valid index whose value bounds every stored value from above. -/
def TracksMax (l : List ℚ) (ma : ℕ) : Prop :=
  ma < l.length ∧ ∀ j, j < l.length → l.getD j 0 ≤ l.getD ma 0

/-- The invariant of the realtime model: the two queues stay the same length
and, while data is present, the four tracked indices are record holders. -/
def MPlotRealtimeModel.Inv (m : MPlotRealtimeModel) : Prop :=
  m.xval_.length = m.yval_.length ∧
  (m.xval_ ≠ [] →
    TracksMin m.xval_ m.minXIndex_ ∧ TracksMax m.xval_ m.maxXIndex_ ∧
    TracksMin m.yval_ m.minYIndex_ ∧ TracksMax m.yval_ m.maxYIndex_)

/-- Runs a sequence of mouse move events through the drag zoomer tool. -/
def dragMoveRun (s : MPlotDragZoomerTool × List MPlotAxisScale)
    (es : List MouseEvent) : MPlotDragZoomerTool × List MPlotAxisScale :=
  es.foldl (fun acc e => dragMouseMove acc.1 acc.2 e) s

/-- The data range stored on the axis scale at index i, when present. -/
def dataRangeAt (axes : List MPlotAxisScale) (i : ℕ) : Option MPlotAxisRange :=
  (axes.get? i).map (fun a => ⟨a.dataMin, a.dataMax⟩)

/-- The selection invariant of the selector tool: the remembered selected item
is a valid index, and an item is flagged selected exactly when it is the
remembered one. -/
def SelInv (t : MPlotPlotSelectorTool) (items : List MPlotItemState) : Prop :=
  (∀ old, t.selectedItem_ = some old → old < items.length) ∧
  ∀ i, i < items.length →
    (((items.get? i).getD ⟨false, false⟩).isSelected = true ↔ t.selectedItem_ = some i)

/-! Theorems.  Small helper lemmas come first, then one theorem per claim with
its witness where the statement carries hypotheses. -/

/-- The wheel zoom factor is strictly positive for every zf and every delta. -/
theorem wheelZoomFactor_pos (zf_ : ℚ) (delta : ℤ) : 0 < wheelZoomFactor zf_ delta := by
  have hq : qMin (zf_ * qAbs (delta : ℚ) / 120) (9 / 10) ≤ 9 / 10 := by
    unfold qMin
    split
    · linarith
    · linarith
  have hFpos : 0 < 1 - qMin (zf_ * qAbs (delta : ℚ) / 120) (9 / 10) := by linarith
  unfold wheelZoomFactor
  split
  · exact one_div_pos.mpr hFpos
  · exact hFpos

/-- C8: MPlotVectorSeriesData.setValues returns false and leaves the stored
vectors unchanged whenever the input vectors differ in size; setXValue and
setYValue return false and leave all data unchanged whenever the index is out
of range; in all other cases the setters apply the update and return true. -/
theorem C8_vector_series_setters (m : MPlotVectorSeriesData) (xs ys : List ℚ)
    (i : ℤ) (v : ℚ) :
    (xs.length ≠ ys.length → m.setValues xs ys = (false, m)) ∧
    (xs.length = ys.length → m.setValues xs ys = (true, ⟨xs, ys⟩)) ∧
    ((i < 0 ∨ (m.xValues_.length : ℤ) ≤ i) → m.setXValue i v = (false, m)) ∧
    (0 ≤ i → i < (m.xValues_.length : ℤ) →
      m.setXValue i v = (true, ⟨m.xValues_.set i.toNat v, m.yValues_⟩)) ∧
    ((i < 0 ∨ (m.yValues_.length : ℤ) ≤ i) → m.setYValue i v = (false, m)) ∧
    (0 ≤ i → i < (m.yValues_.length : ℤ) →
      m.setYValue i v = (true, ⟨m.xValues_, m.yValues_.set i.toNat v⟩)) := by
  refine ⟨fun h => ?_, fun h => ?_, fun h => ?_, fun h1 h2 => ?_, fun h => ?_,
    fun h1 h2 => ?_⟩
  · rw [MPlotVectorSeriesData.setValues, if_neg h]
  · rw [MPlotVectorSeriesData.setValues, if_pos h]
  · rw [MPlotVectorSeriesData.setXValue, if_neg (by omega)]
  · rw [MPlotVectorSeriesData.setXValue, if_pos ⟨h1, h2⟩]
  · rw [MPlotVectorSeriesData.setYValue, if_neg (by omega)]
  · rw [MPlotVectorSeriesData.setYValue, if_pos ⟨h1, h2⟩]

/-- C8 witness: the theorem applied at concrete inputs. -/
theorem C8_vector_series_setters_witness :
    ([(5 : ℚ)].length ≠ [(6 : ℚ), 7].length ∧ ((2 : ℤ) < 0 ∨ ((2 : ℕ) : ℤ) ≤ 2)) ∧
    (MPlotVectorSeriesData.mk [1, 2] [3, 4]).setValues [5] [6, 7]
      = (false, MPlotVectorSeriesData.mk [1, 2] [3, 4]) ∧
    (MPlotVectorSeriesData.mk [1, 2] [3, 4]).setXValue 2 9
      = (false, MPlotVectorSeriesData.mk [1, 2] [3, 4]) ∧
    (MPlotVectorSeriesData.mk [1, 2] [3, 4]).setYValue 0 9
      = (true, MPlotVectorSeriesData.mk [1, 2] [9, 4]) := by
  have h := C8_vector_series_setters (MPlotVectorSeriesData.mk [1, 2] [3, 4]) [5] [6, 7] 2 9
  have h2 := C8_vector_series_setters (MPlotVectorSeriesData.mk [1, 2] [3, 4]) [5] [6, 7] 0 9
  refine ⟨⟨by decide, Or.inr (by norm_num)⟩, h.1 (by decide),
    h.2.2.1 (Or.inr (by norm_num)), ?_⟩
  have h3 := h2.2.2.2.2.2 (by norm_num) (by norm_num)
  simpa using h3

/-- C10: every index-based public accessor is total and returns the null
pointer or the default value on an out-of-range index: MPlot.item, MPlot.axis
and MPlot.axisScale return 0 outside [0, count) for every int index in the
32-bit range (the list counts being int values below 2^31), and
MPlotCursorTool.value returns QPointF(0,0) and MPlotCursorTool.cursor returns 0
for every cursorIndex at or above numCursors(). -/
theorem C10_accessor_totality (p : MPlotState) (t : MPlotCursorTool)
    (index axisIndex scaleIndex : ℤ) (ci : ℕ)
    (haxlen : (p.axes_.length : ℤ) < 2 ^ 31)
    (hsclen : (p.axisScales_.length : ℤ) < 2 ^ 31)
    (hax1 : -2 ^ 31 ≤ axisIndex) (hax2 : axisIndex < 2 ^ 31)
    (hsc1 : -2 ^ 31 ≤ scaleIndex) (hsc2 : scaleIndex < 2 ^ 31) :
    ((index < 0 ∨ (p.items_.length : ℤ) ≤ index) → p.item index = none) ∧
    ((axisIndex < 0 ∨ (p.axes_.length : ℤ) ≤ axisIndex) → p.axis axisIndex = none) ∧
    ((scaleIndex < 0 ∨ (p.axisScales_.length : ℤ) ≤ scaleIndex) →
      p.axisScale scaleIndex = none) ∧
    (t.numCursors ≤ ci → t.value ci = ⟨0, 0⟩ ∧ t.cursor ci = none) := by
  refine ⟨fun h => ?_, fun h => ?_, fun h => ?_, fun h => ?_⟩
  · rw [MPlotState.item, if_neg (by omega)]
  · rw [MPlotState.axis, if_pos ?_]
    unfold toUnsigned
    omega
  · rw [MPlotState.axisScale, if_pos ?_]
    unfold toUnsigned
    omega
  · exact ⟨by rw [MPlotCursorTool.value, if_neg (by omega)],
      by rw [MPlotCursorTool.cursor, if_neg (by omega)]⟩

/-- C10 witness: the theorem applied at concrete inputs. -/
theorem C10_accessor_totality_witness :
    ((3 : ℤ) < 0 ∨ ((1 : ℕ) : ℤ) ≤ 3) ∧
    (MPlotState.mk [7] [8] [9]).item 3 = none ∧
    (MPlotState.mk [7] [8] [9]).axis (-1) = none ∧
    (MPlotState.mk [7] [8] [9]).axisScale 5 = none ∧
    (MPlotCursorTool.mk [] 0).value 0 = ⟨0, 0⟩ ∧
    (MPlotCursorTool.mk [] 0).cursor 0 = none := by
  have h := C10_accessor_totality (MPlotState.mk [7] [8] [9]) (MPlotCursorTool.mk [] 0)
    3 (-1) 5 0 (by norm_num) (by norm_num) (by norm_num) (by norm_num)
    (by norm_num) (by norm_num)
  have h4 := h.2.2.2 (by decide)
  exact ⟨Or.inr (by norm_num), h.1 (Or.inr (by norm_num)),
    h.2.1 (Or.inl (by norm_num)), h.2.2.1 (Or.inr (by norm_num)), h4.1, h4.2⟩

/-- C9 counterexample: the claim says the left-button press never performs a
modulo by zero even with zero cursors; but on a freshly constructed tool, which
holds zero cursors, a left press reaches unsigned c = activeCursor %
numCursors() with numCursors() = 0, the modulo by zero modelled by none. -/
theorem C9_counterexample :
    MPlotCursorTool.mousePressEvent ⟨[], 0⟩ [] true ⟨0, 0⟩ = none := rfl

/-- C9 (amended): MPlotCursorTool.mousePressEvent is well-defined for every
press in every state in which the tool holds at least one cursor; the modulo by
zero happens exactly when the tool holds zero cursors and a left press
arrives. -/
theorem C9_cursor_press_welldefined (t : MPlotCursorTool)
    (axes : List MPlotAxisScale) (b : Bool) (pos : QPointF)
    (h : 0 < t.numCursors) :
    (t.mousePressEvent axes b pos).isSome = true := by
  rw [MPlotCursorTool.mousePressEvent]
  cases b with
  | false => rfl
  | true =>
    rw [if_pos rfl, if_neg (by omega)]
    rfl

/-- C9 witness: the amended theorem applied at a concrete one-cursor tool. -/
theorem C9_cursor_press_welldefined_witness :
    0 < (MPlotCursorTool.mk [⟨⟨0, 0⟩, none, none⟩] 0).numCursors ∧
    ((MPlotCursorTool.mk [⟨⟨0, 0⟩, none, none⟩] 0).mousePressEvent [] true
      ⟨1, 2⟩).isSome = true :=
  ⟨by decide, C9_cursor_press_welldefined (MPlotCursorTool.mk [⟨⟨0, 0⟩, none, none⟩] 0)
    [] true ⟨1, 2⟩ (by decide)⟩

/-- Iterating onBoundsChanged leaves both ghost counters unchanged and, after
at least one iteration, leaves the autoscale scheduled. -/
theorem onBoundsChanged_iterate (s : AutoScaleMachine) (n : ℕ) :
    (onBoundsChanged^[n] s).recomputeCount = s.recomputeCount ∧
    (onBoundsChanged^[n] s).redrawCount = s.redrawCount ∧
    (1 ≤ n → (onBoundsChanged^[n] s).autoScaleScheduled_ = true) := by
  induction n with
  | zero => exact ⟨rfl, rfl, by omega⟩
  | succ k ih =>
    rw [Function.iterate_succ_apply']
    exact ⟨ih.1, ih.2.1, fun _ => rfl⟩

/-- C3: with autoscaling enabled, one or more bounds changes before control
returns to the event loop only schedule the recomputation (the ghost
recomputation counter stays put), the recomputation then runs exactly once
inside the return to the event loop, right before the single redraw, and
doDelayedAutoScale performs the pending recomputation immediately, clearing the
scheduled flag. -/
theorem C3_deferred_autoscale (s : AutoScaleMachine) (n : ℕ) (hn : 1 ≤ n) :
    (onBoundsChanged^[n] s).recomputeCount = s.recomputeCount ∧
    (onBoundsChanged^[n] s).redrawCount = s.redrawCount ∧
    (returnToEventLoop (onBoundsChanged^[n] s)).recomputeCount
      = s.recomputeCount + 1 ∧
    (returnToEventLoop (onBoundsChanged^[n] s)).redrawCount = s.redrawCount + 1 ∧
    (doDelayedAutoScale s).recomputeCount = s.recomputeCount + 1 ∧
    (doDelayedAutoScale s).autoScaleScheduled_ = false := by
  obtain ⟨h1, h2, h3⟩ := onBoundsChanged_iterate s n
  refine ⟨h1, h2, ?_, ?_, rfl, rfl⟩
  · rw [returnToEventLoop, if_pos (h3 hn)]
    simp [doDelayedAutoScale, h1]
  · rw [returnToEventLoop, if_pos (h3 hn)]
    simp [doDelayedAutoScale, h2]

/-- C3 witness: the theorem applied at a concrete machine and two bounds
changes. -/
theorem C3_deferred_autoscale_witness :
    1 ≤ 2 ∧
    (onBoundsChanged^[2] (AutoScaleMachine.mk false 0 0)).recomputeCount = 0 ∧
    (returnToEventLoop (onBoundsChanged^[2] (AutoScaleMachine.mk false 0 0))).recomputeCount
      = 1 := by
  have h := C3_deferred_autoscale (AutoScaleMachine.mk false 0 0) 2 (by omega)
  exact ⟨by omega, h.1, h.2.2.1⟩

/-- Folding interval union only widens the running interval. -/
theorem foldl_intervalUnite_le (rs : List (ℚ × ℚ)) (a : ℚ × ℚ) :
    (rs.foldl intervalUnite a).1 ≤ a.1 ∧ a.2 ≤ (rs.foldl intervalUnite a).2 := by
  induction rs generalizing a with
  | nil => exact ⟨le_refl _, le_refl _⟩
  | cons b bs ih =>
    have h := ih (intervalUnite a b)
    refine ⟨le_trans h.1 ?_, le_trans ?_ h.2⟩
    · exact min_le_left _ _
    · exact le_max_left _ _

/-- The folded interval union contains every member interval. -/
theorem foldl_intervalUnite_mem (rs : List (ℚ × ℚ)) (a r : ℚ × ℚ) (h : r ∈ rs) :
    (rs.foldl intervalUnite a).1 ≤ r.1 ∧ r.2 ≤ (rs.foldl intervalUnite a).2 := by
  induction rs generalizing a with
  | nil => cases h
  | cons b bs ih =>
    rw [List.foldl_cons]
    rcases List.mem_cons.mp h with hb | hbs
    · subst hb
      have h2 := foldl_intervalUnite_le bs (intervalUnite a r)
      exact ⟨le_trans h2.1 (min_le_right _ _), le_trans (le_max_right _ _) h2.2⟩
    · exact ih (intervalUnite a b) hbs

/-- C4: after the autoscale recomputation runs for an axis scale with
autoscaling enabled, the extent of every plot item targeted at the axis is
contained in the recomputed data range. -/
theorem C4_autoscale_fits (axis : MPlotAxisScale) (itemExtents : List (ℚ × ℚ))
    (r : ℚ × ℚ) (hmem : r ∈ itemExtents) (hauto : axis.autoScaleEnabled = true) :
    (doDelayedAutoScaleAxis axis itemExtents).dataMin ≤ r.1 ∧
    r.2 ≤ (doDelayedAutoScaleAxis axis itemExtents).dataMax := by
  cases itemExtents with
  | nil => cases hmem
  | cons a rs =>
    rw [doDelayedAutoScaleAxis, if_pos hauto]
    show (MPlotAxisScale.setDataRange _ _).dataMin ≤ _ ∧
      _ ≤ (MPlotAxisScale.setDataRange _ _).dataMax
    rw [MPlotAxisScale.setDataRange]
    rcases List.mem_cons.mp hmem with ha | hrs
    · subst ha
      exact foldl_intervalUnite_le rs r
    · exact foldl_intervalUnite_mem rs a r hrs

/-- C4 witness: the theorem applied at a concrete axis and item list. -/
theorem C4_autoscale_fits_witness :
    ((2 : ℚ), (3 : ℚ)) ∈ [((2 : ℚ), (3 : ℚ)), (0, 5)] ∧
    (doDelayedAutoScaleAxis ⟨0, 1, 0, 1, false, true⟩ [(2, 3), (0, 5)]).dataMin ≤ 2 ∧
    (3 : ℚ) ≤ (doDelayedAutoScaleAxis ⟨0, 1, 0, 1, false, true⟩ [(2, 3), (0, 5)]).dataMax := by
  have h := C4_autoscale_fits ⟨0, 1, 0, 1, false, true⟩ [(2, 3), (0, 5)] (2, 3)
    (by simp) rfl
  exact ⟨by simp, h.1, h.2⟩

/-- C2: for every wheel event handled by MPlotWheelZoomerTool on a target axis
scale with max above min, the new data range scales by the zoom factor F
derived from the wheel delta, and the data point under the cursor (the drawing
position mapped to data coordinates via mapDrawingToData) keeps its fractional
position in the axis range. -/
theorem C2_wheel_zoom (zf_ : ℚ) (targetAxes_ : List MPlotAxisScale) (delta : ℤ)
    (pos : QPointF) (i : ℕ) (axis : MPlotAxisScale)
    (hget : targetAxes_.get? i = some axis)
    (hlt : axis.dataMin < axis.dataMax) :
    (MPlotWheelZoomerTool.wheelEvent zf_ targetAxes_ delta pos).get? i
      = some (wheelUpdateAxis zf_ delta pos axis) ∧
    (wheelUpdateAxis zf_ delta pos axis).dataMax
        - (wheelUpdateAxis zf_ delta pos axis).dataMin
      = wheelZoomFactor zf_ delta * (axis.dataMax - axis.dataMin) ∧
    (axis.mapDrawingToData (if axis.orientationVertical then pos.y else pos.x)
          - axis.dataMin) / (axis.dataMax - axis.dataMin)
      = (axis.mapDrawingToData (if axis.orientationVertical then pos.y else pos.x)
          - (wheelUpdateAxis zf_ delta pos axis).dataMin)
        / ((wheelUpdateAxis zf_ delta pos axis).dataMax
          - (wheelUpdateAxis zf_ delta pos axis).dataMin) := by
  have hF := wheelZoomFactor_pos zf_ delta
  set F := wheelZoomFactor zf_ delta with hFdef
  set x := axis.mapDrawingToData (if axis.orientationVertical then pos.y else pos.x)
    with hxdef
  have hmin : (wheelUpdateAxis zf_ delta pos axis).dataMin
      = x + F * (axis.dataMin - x) := by
    rw [wheelUpdateAxis, MPlotAxisScale.setDataRange]
  have hmax : (wheelUpdateAxis zf_ delta pos axis).dataMax
      = x + F * (axis.dataMax - x) := by
    rw [wheelUpdateAxis, MPlotAxisScale.setDataRange]
  refine ⟨?_, ?_, ?_⟩
  · rw [MPlotWheelZoomerTool.wheelEvent, List.get?_map, hget]
    rfl
  · rw [hmin, hmax]
    ring
  · rw [hmin, hmax]
    have h1 : x - (x + F * (axis.dataMin - x)) = F * (x - axis.dataMin) := by ring
    have h2 : x + F * (axis.dataMax - x) - (x + F * (axis.dataMin - x))
        = F * (axis.dataMax - axis.dataMin) := by ring
    rw [h1, h2, mul_div_mul_left _ _ (ne_of_gt hF)]

/-- C2 witness: the theorem applied at a concrete horizontal axis, one wheel
click in and the cursor at drawing position 50. -/
theorem C2_wheel_zoom_witness :
    ([(⟨0, 10, 0, 100, false, true⟩ : MPlotAxisScale)].get? 0
      = some ⟨0, 10, 0, 100, false, true⟩) ∧
    ((0 : ℚ) < 10) ∧
    (MPlotWheelZoomerTool.wheelEvent (1/4) [⟨0, 10, 0, 100, false, true⟩] 120
        ⟨50, 0⟩).get? 0
      = some (wheelUpdateAxis (1/4) 120 ⟨50, 0⟩ ⟨0, 10, 0, 100, false, true⟩) := by
  have h := C2_wheel_zoom (1/4) [⟨0, 10, 0, 100, false, true⟩] 120 ⟨50, 0⟩ 0
    ⟨0, 10, 0, 100, false, true⟩ rfl (by norm_num)
  exact ⟨rfl, by norm_num, h.1⟩

/-- A move event that stays within the rubber band deadzone leaves the tool and
the axes untouched while no drag is in progress. -/
theorem dragMouseMove_within_deadzone (t : MPlotDragZoomerTool)
    (axes : List MPlotAxisScale) (e : MouseEvent)
    (h1 : t.dragInProgress_ = false)
    (h2 : (e.buttonDownScenePos.sub e.scenePos).manhattanLength
      ≤ MPLOT_RUBBERBAND_DEADZONE) :
    dragMouseMove t axes e = (t, axes) := by
  rw [dragMouseMove]
  have hng : ¬ ((e.buttonDownScenePos.sub e.scenePos).manhattanLength
      > MPLOT_RUBBERBAND_DEADZONE) := not_lt.mpr h2
  cases hds : t.dragStarted_ with
  | false => simp [hds, h1]
  | true => simp [hds, hng, h1]

/-- A run of move events within the deadzone is the identity while no drag is
in progress. -/
theorem dragMoveRun_within_deadzone (moves : List MouseEvent)
    (t : MPlotDragZoomerTool) (axes : List MPlotAxisScale)
    (h1 : t.dragInProgress_ = false)
    (hmoves : ∀ e ∈ moves, (e.buttonDownScenePos.sub e.scenePos).manhattanLength
      ≤ MPLOT_RUBBERBAND_DEADZONE) :
    dragMoveRun (t, axes) moves = (t, axes) := by
  induction moves with
  | nil => rfl
  | cons e es ih =>
    rw [dragMoveRun, List.foldl_cons]
    rw [show dragMouseMove (t, axes).1 (t, axes).2 e = (t, axes) from
      dragMouseMove_within_deadzone t axes e h1 (hmoves e (List.mem_cons_self e es))]
    exact ih (fun e2 he2 => hmoves e2 (List.mem_cons_of_mem e he2))

/-- A left release while no drag is in progress only clears the drag flags and
the selection rectangle. -/
theorem dragMouseRelease_left_idle (t : MPlotDragZoomerTool)
    (axes : List MPlotAxisScale) (e : MouseEvent)
    (h1 : t.dragInProgress_ = false) (he : e.button = MouseButton.left) :
    dragMouseRelease t axes e
      = ({ t with dragStarted_ := false, selectionRect_ := QRectF.nullRect }, axes) := by
  rw [dragMouseRelease]
  simp [he, h1]

/-- C6: a left press followed by a release, with every intervening move staying
inside the rubber band deadzone, leaves the axis scales (data ranges and
autoscale flags) unchanged and pushes nothing onto the zoom stack. -/
theorem C6_drag_deadzone (t0 : MPlotDragZoomerTool) (axes0 : List MPlotAxisScale)
    (pressE releaseE : MouseEvent) (moves : List MouseEvent)
    (hnp : t0.dragInProgress_ = false)
    (hpress : pressE.button = MouseButton.left)
    (hrel : releaseE.button = MouseButton.left)
    (hmoves : ∀ e ∈ moves, (e.buttonDownScenePos.sub e.scenePos).manhattanLength
      ≤ MPLOT_RUBBERBAND_DEADZONE) :
    (dragMouseRelease (dragMoveRun (dragMousePress t0 pressE, axes0) moves).1
        (dragMoveRun (dragMousePress t0 pressE, axes0) moves).2 releaseE).2
      = axes0 ∧
    (dragMouseRelease (dragMoveRun (dragMousePress t0 pressE, axes0) moves).1
        (dragMoveRun (dragMousePress t0 pressE, axes0) moves).2 releaseE).1.oldZooms_
      = t0.oldZooms_ ∧
    (dragMouseRelease (dragMoveRun (dragMousePress t0 pressE, axes0) moves).1
        (dragMoveRun (dragMousePress t0 pressE, axes0) moves).2 releaseE).1.dragInProgress_
      = false := by
  have hp : dragMousePress t0 pressE = { t0 with dragStarted_ := true } := by
    rw [dragMousePress, if_pos hpress]
  have hrun : dragMoveRun (dragMousePress t0 pressE, axes0) moves
      = (dragMousePress t0 pressE, axes0) := by
    apply dragMoveRun_within_deadzone moves _ _ _ hmoves
    rw [hp]
    exact hnp
  rw [hrun, hp]
  rw [dragMouseRelease_left_idle { t0 with dragStarted_ := true } axes0 releaseE hnp hrel]
  exact ⟨rfl, rfl, hnp⟩

/-- C6 witness: the theorem applied at a concrete state, one in-deadzone move
between press and release. -/
theorem C6_drag_deadzone_witness :
    ((MouseEvent.mk MouseButton.left ⟨0, 0⟩ ⟨1, 1⟩ ⟨0, 0⟩ ⟨0, 0⟩).buttonDownScenePos.sub
        (MouseEvent.mk MouseButton.left ⟨0, 0⟩ ⟨1, 1⟩ ⟨0, 0⟩ ⟨0, 0⟩).scenePos).manhattanLength
      ≤ MPLOT_RUBBERBAND_DEADZONE ∧
    (dragMouseRelease
        (dragMoveRun (dragMousePress
            (MPlotDragZoomerTool.mk false false [] [0] QRectF.nullRect)
            (MouseEvent.mk MouseButton.left ⟨0, 0⟩ ⟨0, 0⟩ ⟨0, 0⟩ ⟨0, 0⟩), [axisScaleNull])
          [MouseEvent.mk MouseButton.left ⟨0, 0⟩ ⟨1, 1⟩ ⟨0, 0⟩ ⟨0, 0⟩]).1
        (dragMoveRun (dragMousePress
            (MPlotDragZoomerTool.mk false false [] [0] QRectF.nullRect)
            (MouseEvent.mk MouseButton.left ⟨0, 0⟩ ⟨0, 0⟩ ⟨0, 0⟩ ⟨0, 0⟩), [axisScaleNull])
          [MouseEvent.mk MouseButton.left ⟨0, 0⟩ ⟨1, 1⟩ ⟨0, 0⟩ ⟨0, 0⟩]).2
        (MouseEvent.mk MouseButton.left ⟨2, 2⟩ ⟨2, 2⟩ ⟨0, 0⟩ ⟨0, 0⟩)).2
      = [axisScaleNull] := by
  constructor
  · norm_num [QPointF.sub, QPointF.manhattanLength, qAbs, MPLOT_RUBBERBAND_DEADZONE]
  · exact (C6_drag_deadzone (MPlotDragZoomerTool.mk false false [] [0] QRectF.nullRect)
      [axisScaleNull]
      (MouseEvent.mk MouseButton.left ⟨0, 0⟩ ⟨0, 0⟩ ⟨0, 0⟩ ⟨0, 0⟩)
      (MouseEvent.mk MouseButton.left ⟨2, 2⟩ ⟨2, 2⟩ ⟨0, 0⟩ ⟨0, 0⟩)
      [MouseEvent.mk MouseButton.left ⟨0, 0⟩ ⟨1, 1⟩ ⟨0, 0⟩ ⟨0, 0⟩]
      rfl rfl rfl
      (by
        intro e he
        rw [List.mem_singleton] at he
        subst he
        norm_num [QPointF.sub, QPointF.manhattanLength, qAbs, MPLOT_RUBBERBAND_DEADZONE])).1

/-- Updating one axis slot preserves the number of axis scales. -/
theorem setAxisAt_length (axes : List MPlotAxisScale) (i : ℕ)
    (f : MPlotAxisScale → MPlotAxisScale) :
    (setAxisAt axes i f).length = axes.length := by
  rw [setAxisAt]
  cases h : axes.get? i with
  | none => rfl
  | some a => simp

/-- Updating one axis slot leaves the other slots unchanged. -/
theorem setAxisAt_get_ne (axes : List MPlotAxisScale) (j i : ℕ)
    (f : MPlotAxisScale → MPlotAxisScale) (h : j ≠ i) :
    (setAxisAt axes j f).get? i = axes.get? i := by
  rw [setAxisAt]
  cases hj : axes.get? j with
  | none => rfl
  | some a =>
    rw [List.get?_eq_getElem?, List.get?_eq_getElem?, List.getElem?_set_ne h]

/-- Updating one occupied axis slot applies the update there. -/
theorem setAxisAt_get_self (axes : List MPlotAxisScale) (i : ℕ)
    (f : MPlotAxisScale → MPlotAxisScale) (a : MPlotAxisScale)
    (h : axes.get? i = some a) :
    (setAxisAt axes i f).get? i = some (f a) := by
  have hi : i < axes.length := by
    by_contra hc
    rw [List.get?_eq_getElem?, List.getElem?_eq_none (by omega)] at h
    cases h
  rw [setAxisAt, h, List.get?_eq_getElem?, List.getElem?_set_self (by simpa using hi)]

/-- The zoom fold of the left-button release records, in order, the data ranges
all target axes had before the zoom, and preserves the axis count. -/
theorem dragZoomFold_records (e : MouseEvent) (T : List ℕ) :
    ∀ (axes : List MPlotAxisScale) (acc : List (ℕ × MPlotAxisRange)),
    T.Nodup → (∀ i ∈ T, i < axes.length) →
    (T.foldl (dragZoomStep e) (acc, axes)).1
      = acc ++ T.map (fun i => (i, (dataRangeAt axes i).getD ⟨0, 0⟩)) ∧
    (T.foldl (dragZoomStep e) (acc, axes)).2.length = axes.length := by
  induction T with
  | nil => intro axes acc _ _; simp
  | cons i T ih =>
    intro axes acc hnd hval
    have hi : i < axes.length := hval i (List.mem_cons_self i T)
    obtain ⟨a, ha⟩ : ∃ a, axes.get? i = some a :=
      ⟨axes.get ⟨i, hi⟩, by rw [List.get?_eq_getElem?, List.getElem?_eq_getElem hi]; rfl⟩
    obtain ⟨g, hg⟩ : ∃ g, dragZoomStep e (acc, axes) i
        = (acc ++ [(i, ⟨a.dataMin, a.dataMax⟩)], axes.set i g) := by
      unfold dragZoomStep
      rw [show (acc, axes).2 = axes from rfl, ha]
      exact ⟨_, rfl⟩
    rw [List.foldl_cons, hg]
    obtain ⟨hnd1, hnd2⟩ := List.nodup_cons.mp hnd
    have hlen : ∀ j ∈ T, j < (axes.set i g).length := by
      intro j hj
      rw [List.length_set]
      exact hval j (List.mem_cons_of_mem i hj)
    obtain ⟨ih1, ih2⟩ := ih (axes.set i g) (acc ++ [(i, ⟨a.dataMin, a.dataMax⟩)]) hnd2 hlen
    constructor
    · rw [ih1, List.append_assoc, List.singleton_append, List.map_cons]
      congr 2
      · rw [dataRangeAt, ha]
        rfl
      · apply List.map_congr_left
        intro j hj
        have hji : i ≠ j := fun hij => hnd1 (hij ▸ hj)
        rw [dataRangeAt, dataRangeAt, List.get?_eq_getElem?, List.get?_eq_getElem?,
          List.getElem?_set_ne hji]
    · rw [ih2, List.length_set]

/-- One restore step preserves the number of axis scales. -/
theorem dragRestoreStep_length (T2 : List ℕ) (axes : List MPlotAxisScale)
    (p : ℕ × MPlotAxisRange) :
    (dragRestoreStep T2 axes p).length = axes.length := by
  rw [dragRestoreStep]
  split
  · exact setAxisAt_length axes p.1 _
  · rfl

/-- The restore fold preserves the number of axis scales. -/
theorem dragRestoreFold_length (T2 : List ℕ) (zl : List (ℕ × MPlotAxisRange)) :
    ∀ axes : List MPlotAxisScale,
    (zl.foldl (dragRestoreStep T2) axes).length = axes.length := by
  induction zl with
  | nil => intro axes; rfl
  | cons p rest ih =>
    intro axes
    rw [List.foldl_cons, ih (dragRestoreStep T2 axes p), dragRestoreStep_length]

/-- The restore fold leaves slots untouched whose index appears in no saved
pair. -/
theorem dragRestoreFold_not_mem (T2 : List ℕ) (i : ℕ)
    (zl : List (ℕ × MPlotAxisRange)) :
    ∀ axes : List MPlotAxisScale, (∀ p ∈ zl, p.1 ≠ i) →
    (zl.foldl (dragRestoreStep T2) axes).get? i = axes.get? i := by
  induction zl with
  | nil => intro axes _; rfl
  | cons p rest ih =>
    intro axes hne
    rw [List.foldl_cons, ih _ (fun q hq => hne q (List.mem_cons_of_mem p hq))]
    rw [dragRestoreStep]
    split
    · exact setAxisAt_get_ne axes p.1 i _ (hne p (List.mem_cons_self p rest))
    · rfl

/-- The restore fold puts every saved range back on its axis, for pairwise
distinct saved indices that are still target axes. -/
theorem dragRestoreFold_restores (T2 : List ℕ) (zl : List (ℕ × MPlotAxisRange)) :
    ∀ (axes : List MPlotAxisScale) (i : ℕ) (r : MPlotAxisRange),
    (zl.map Prod.fst).Nodup → (i, r) ∈ zl → i ∈ T2 → i < axes.length →
    dataRangeAt (zl.foldl (dragRestoreStep T2) axes) i = some r := by
  induction zl with
  | nil => intro axes i r _ hmem _ _; cases hmem
  | cons p rest ih =>
    intro axes i r hnd hmem hT hi
    rw [List.map_cons] at hnd
    obtain ⟨hnd1, hnd2⟩ := List.nodup_cons.mp hnd
    rw [List.foldl_cons]
    rcases List.mem_cons.mp hmem with hp | hrest
    · subst hp
      obtain ⟨a, ha⟩ : ∃ a, axes.get? i = some a :=
        ⟨axes.get ⟨i, hi⟩, by rw [List.get?_eq_getElem?, List.getElem?_eq_getElem hi]; rfl⟩
      have hstep : dragRestoreStep T2 axes (i, r)
          = setAxisAt axes i (fun x => x.setDataRange r) := by
        rw [dragRestoreStep]
        exact if_pos hT
      have hset : (dragRestoreStep T2 axes (i, r)).get? i = some (a.setDataRange r) := by
        rw [hstep]
        exact setAxisAt_get_self axes i _ a ha
      have hne : ∀ q ∈ rest, q.1 ≠ i := by
        intro q hq hqi
        exact hnd1 ((List.mem_map).mpr ⟨q, hq, hqi⟩)
      rw [dataRangeAt, dragRestoreFold_not_mem T2 i rest _ hne, hset]
      rfl
    · apply ih (dragRestoreStep T2 axes p) i r hnd2 hrest hT
      rw [dragRestoreStep_length]
      exact hi

/-- One autoscale-enable step keeps an already-set flag at index i. -/
theorem setAutoScaleStep_keeps (axes : List MPlotAxisScale) (j i : ℕ) (b : Bool)
    (h : (axes.get? i).map MPlotAxisScale.autoScaleEnabled = some b) :
    ((setAxisAt axes j (fun a => a.setAutoScaleEnabled b)).get? i).map
      MPlotAxisScale.autoScaleEnabled = some b := by
  by_cases hij : j = i
  · subst hij
    cases ha : axes.get? j with
    | none => rw [ha] at h; cases h
    | some a =>
      rw [setAxisAt_get_self axes j _ a ha]
      rfl
  · rw [setAxisAt_get_ne axes j i _ hij]
    exact h

/-- The autoscale-enable fold keeps an already-set flag at index i. -/
theorem setAutoScaleOnTargets_keeps (targets : List ℕ) :
    ∀ (axes : List MPlotAxisScale) (i : ℕ) (b : Bool),
    (axes.get? i).map MPlotAxisScale.autoScaleEnabled = some b →
    ((setAutoScaleOnTargets targets axes b).get? i).map
      MPlotAxisScale.autoScaleEnabled = some b := by
  induction targets with
  | nil => intro axes i b h; exact h
  | cons j T ih =>
    intro axes i b h
    rw [setAutoScaleOnTargets, List.foldl_cons]
    exact ih _ i b (setAutoScaleStep_keeps axes j i b h)

/-- The autoscale-enable fold preserves the number of axis scales. -/
theorem setAutoScaleOnTargets_length (targets : List ℕ) :
    ∀ (axes : List MPlotAxisScale) (b : Bool),
    (setAutoScaleOnTargets targets axes b).length = axes.length := by
  induction targets with
  | nil => intro axes b; rfl
  | cons j T ih =>
    intro axes b
    rw [setAutoScaleOnTargets, List.foldl_cons]
    rw [show List.foldl _ (setAxisAt axes j _) T = setAutoScaleOnTargets T (setAxisAt axes j _) b from rfl]
    rw [ih, setAxisAt_length]

/-- The autoscale-enable fold sets the flag on every valid target index. -/
theorem setAutoScaleOnTargets_mem (targets : List ℕ) :
    ∀ (axes : List MPlotAxisScale) (b : Bool) (i : ℕ),
    i ∈ targets → i < axes.length →
    ((setAutoScaleOnTargets targets axes b).get? i).map
      MPlotAxisScale.autoScaleEnabled = some b := by
  induction targets with
  | nil => intro axes b i hmem _; cases hmem
  | cons j T ih =>
    intro axes b i hmem hi
    rw [setAutoScaleOnTargets, List.foldl_cons]
    rw [show List.foldl _ (setAxisAt axes j _) T = setAutoScaleOnTargets T (setAxisAt axes j _) b from rfl]
    by_cases hij : j = i
    · subst hij
      obtain ⟨a, ha⟩ : ∃ a, axes.get? j = some a :=
        ⟨axes.get ⟨j, hi⟩, by rw [List.get?_eq_getElem?, List.getElem?_eq_getElem hi]; rfl⟩
      apply setAutoScaleOnTargets_keeps
      rw [setAxisAt_get_self axes j _ a ha]
      rfl
    · rcases List.mem_cons.mp hmem with hji | hT
      · exact absurd hji.symm hij
      · apply ih _ b i hT
        rw [setAxisAt_length]
        exact hi

/-- Characterization of the left-button release that completes a drag zoom: the
drag flags clear, the previous target ranges are pushed, and the axes become
the zoom fold result. -/
theorem dragMouseRelease_left_zoom (s0 : MPlotDragZoomerTool)
    (axes0 : List MPlotAxisScale) (e : MouseEvent)
    (hdrag : s0.dragInProgress_ = true) (he : e.button = MouseButton.left)
    (hnodup : s0.targetAxes_.Nodup)
    (hval : ∀ i ∈ s0.targetAxes_, i < axes0.length) :
    dragMouseRelease s0 axes0 e
      = ({ s0 with
            dragStarted_ := false
            selectionRect_ := QRectF.nullRect
            dragInProgress_ := false
            oldZooms_ := (s0.targetAxes_.map
              (fun i => (i, (dataRangeAt axes0 i).getD ⟨0, 0⟩))) :: s0.oldZooms_ },
         (s0.targetAxes_.foldl (dragZoomStep e) ([], axes0)).2) := by
  obtain ⟨hf1, _⟩ := dragZoomFold_records e s0.targetAxes_ axes0 [] hnodup hval
  rw [dragMouseRelease]
  simp only [he, hdrag, if_true, reduceIte]
  rw [List.nil_append] at hf1
  simp [hf1]

/-- Characterization of a right-button release outside a drag with a non-empty
zoom stack: the top entry is popped and its saved ranges restored on the axes
still targeted. -/
theorem dragMouseRelease_right_pop (t : MPlotDragZoomerTool)
    (axes : List MPlotAxisScale) (e : MouseEvent)
    (zl : List (ℕ × MPlotAxisRange)) (rest : List (List (ℕ × MPlotAxisRange)))
    (hnp : t.dragInProgress_ = false) (he : e.button = MouseButton.right)
    (hz : t.oldZooms_ = zl :: rest) :
    dragMouseRelease t axes e
      = ({ t with oldZooms_ := rest },
         zl.foldl (dragRestoreStep t.targetAxes_) axes) := by
  rw [dragMouseRelease]
  simp only [he, hnp, hz, reduceIte, reduceCtorEq]
  simp

/-- Characterization of a right-button release outside a drag with an empty
zoom stack: autoscaling is re-enabled on all target axes. -/
theorem dragMouseRelease_right_empty (t : MPlotDragZoomerTool)
    (axes : List MPlotAxisScale) (e : MouseEvent)
    (hnp : t.dragInProgress_ = false) (he : e.button = MouseButton.right)
    (hz : t.oldZooms_ = []) :
    dragMouseRelease t axes e = (t, setAutoScaleOnTargets t.targetAxes_ axes true) := by
  rw [dragMouseRelease]
  simp only [he, hnp, hz, reduceIte, reduceCtorEq]
  simp

/-- C5: a completed left-button drag zoom pushes the previous data ranges of
all target axes onto the zoom stack; a subsequent right-button release pops
that most recent entry (LIFO) and restores, on every axis scale still among the
target axes, exactly the data range that held right before the drag zoom; a
right-button release on an empty zoom stack instead re-enables auto-scaling on
every target axis. -/
theorem C5_drag_zoom_restore (s0 t1 t2 : MPlotDragZoomerTool)
    (axes0 axes1 axes2 : List MPlotAxisScale) (e1 e2 : MouseEvent) (T2 : List ℕ)
    (t3 : MPlotDragZoomerTool) (axes3 : List MPlotAxisScale) (e3 : MouseEvent)
    (hdrag : s0.dragInProgress_ = true)
    (hnodup : s0.targetAxes_.Nodup)
    (hval : ∀ i ∈ s0.targetAxes_, i < axes0.length)
    (he1 : e1.button = MouseButton.left)
    (he2 : e2.button = MouseButton.right)
    (h1 : dragMouseRelease s0 axes0 e1 = (t1, axes1))
    (h2 : dragMouseRelease { t1 with targetAxes_ := T2 } axes1 e2 = (t2, axes2)) :
    t1.oldZooms_
      = (s0.targetAxes_.map (fun i => (i, (dataRangeAt axes0 i).getD ⟨0, 0⟩)))
        :: s0.oldZooms_ ∧
    t2.oldZooms_ = s0.oldZooms_ ∧
    (∀ i ∈ s0.targetAxes_, i ∈ T2 → dataRangeAt axes2 i = dataRangeAt axes0 i) ∧
    (t3.dragInProgress_ = false → t3.oldZooms_ = [] → e3.button = MouseButton.right →
      ∀ i ∈ t3.targetAxes_, i < axes3.length →
        ((dragMouseRelease t3 axes3 e3).2.get? i).map MPlotAxisScale.autoScaleEnabled
          = some true) := by
  have hchar := dragMouseRelease_left_zoom s0 axes0 e1 hdrag he1 hnodup hval
  rw [h1] at hchar
  have ht1 : t1 = { s0 with
      dragStarted_ := false
      selectionRect_ := QRectF.nullRect
      dragInProgress_ := false
      oldZooms_ := (s0.targetAxes_.map
        (fun i => (i, (dataRangeAt axes0 i).getD ⟨0, 0⟩))) :: s0.oldZooms_ } :=
    congrArg Prod.fst hchar
  have haxes1 : axes1 = (s0.targetAxes_.foldl (dragZoomStep e1) ([], axes0)).2 :=
    congrArg Prod.snd hchar
  have hlen1 : axes1.length = axes0.length := by
    rw [haxes1]
    exact (dragZoomFold_records e1 s0.targetAxes_ axes0 [] hnodup hval).2
  have hc1 : t1.oldZooms_
      = (s0.targetAxes_.map (fun i => (i, (dataRangeAt axes0 i).getD ⟨0, 0⟩)))
        :: s0.oldZooms_ := by
    rw [ht1]
  have hchar2 := dragMouseRelease_right_pop { t1 with targetAxes_ := T2 } axes1 e2
    (s0.targetAxes_.map (fun i => (i, (dataRangeAt axes0 i).getD ⟨0, 0⟩)))
    s0.oldZooms_ (by rw [ht1]) he2 (by rw [ht1])
  rw [h2] at hchar2
  have ht2 : t2 = { { t1 with targetAxes_ := T2 } with oldZooms_ := s0.oldZooms_ } :=
    congrArg Prod.fst hchar2
  have haxes2 : axes2
      = (s0.targetAxes_.map (fun i => (i, (dataRangeAt axes0 i).getD ⟨0, 0⟩))).foldl
          (dragRestoreStep T2) axes1 :=
    congrArg Prod.snd hchar2
  refine ⟨hc1, by rw [ht2], ?_, ?_⟩
  · intro i hiT hiT2
    obtain ⟨a, ha⟩ : ∃ a, axes0.get? i = some a :=
      ⟨axes0.get ⟨i, hval i hiT⟩,
        by rw [List.get?_eq_getElem?, List.getElem?_eq_getElem (hval i hiT)]; rfl⟩
    have hri : dataRangeAt axes0 i = some ⟨a.dataMin, a.dataMax⟩ := by
      rw [dataRangeAt, ha]
      rfl
    have hnd2 : ((s0.targetAxes_.map
        (fun i => (i, (dataRangeAt axes0 i).getD ⟨0, 0⟩))).map Prod.fst).Nodup := by
      have hmm : ((s0.targetAxes_.map
          (fun i => (i, (dataRangeAt axes0 i).getD ⟨0, 0⟩))).map Prod.fst)
          = s0.targetAxes_ := by
        rw [List.map_map]
        exact List.map_id s0.targetAxes_
      rw [hmm]
      exact hnodup
    have hmem2 : (i, (dataRangeAt axes0 i).getD ⟨0, 0⟩)
        ∈ s0.targetAxes_.map (fun i => (i, (dataRangeAt axes0 i).getD ⟨0, 0⟩)) :=
      List.mem_map.mpr ⟨i, hiT, rfl⟩
    have hres := dragRestoreFold_restores T2
      (s0.targetAxes_.map (fun i => (i, (dataRangeAt axes0 i).getD ⟨0, 0⟩)))
      axes1 i ((dataRangeAt axes0 i).getD ⟨0, 0⟩) hnd2 hmem2 hiT2
      (by rw [hlen1]; exact hval i hiT)
    rw [← haxes2] at hres
    rw [hres, hri]
    rfl
  · intro h31 h32 h33 i hi hilen
    rw [dragMouseRelease_right_empty t3 axes3 e3 h31 h33 h32]
    exact setAutoScaleOnTargets_mem t3.targetAxes_ axes3 true i hi hilen

/-- C5 witness: the theorem applied at a one-axis plot, a completed drag zoom
from drawing position 10 to 20 and a following right-button release. -/
theorem C5_drag_zoom_restore_witness :
    (MPlotDragZoomerTool.mk false true [] [0] QRectF.nullRect).dragInProgress_ = true ∧
    dataRangeAt (dragMouseRelease
        { (dragMouseRelease (MPlotDragZoomerTool.mk false true [] [0] QRectF.nullRect)
            [⟨0, 10, 0, 100, false, false⟩]
            (MouseEvent.mk MouseButton.left ⟨20, 0⟩ ⟨20, 0⟩ ⟨10, 0⟩ ⟨10, 0⟩)).1 with
          targetAxes_ := [0] }
        (dragMouseRelease (MPlotDragZoomerTool.mk false true [] [0] QRectF.nullRect)
            [⟨0, 10, 0, 100, false, false⟩]
            (MouseEvent.mk MouseButton.left ⟨20, 0⟩ ⟨20, 0⟩ ⟨10, 0⟩ ⟨10, 0⟩)).2
        (MouseEvent.mk MouseButton.right ⟨0, 0⟩ ⟨0, 0⟩ ⟨0, 0⟩ ⟨0, 0⟩)).2 0
      = dataRangeAt [⟨0, 10, 0, 100, false, false⟩] 0 := by
  have h := C5_drag_zoom_restore
    (MPlotDragZoomerTool.mk false true [] [0] QRectF.nullRect)
    (dragMouseRelease (MPlotDragZoomerTool.mk false true [] [0] QRectF.nullRect)
        [⟨0, 10, 0, 100, false, false⟩]
        (MouseEvent.mk MouseButton.left ⟨20, 0⟩ ⟨20, 0⟩ ⟨10, 0⟩ ⟨10, 0⟩)).1
    (dragMouseRelease
        { (dragMouseRelease (MPlotDragZoomerTool.mk false true [] [0] QRectF.nullRect)
            [⟨0, 10, 0, 100, false, false⟩]
            (MouseEvent.mk MouseButton.left ⟨20, 0⟩ ⟨20, 0⟩ ⟨10, 0⟩ ⟨10, 0⟩)).1 with
          targetAxes_ := [0] }
        (dragMouseRelease (MPlotDragZoomerTool.mk false true [] [0] QRectF.nullRect)
            [⟨0, 10, 0, 100, false, false⟩]
            (MouseEvent.mk MouseButton.left ⟨20, 0⟩ ⟨20, 0⟩ ⟨10, 0⟩ ⟨10, 0⟩)).2
        (MouseEvent.mk MouseButton.right ⟨0, 0⟩ ⟨0, 0⟩ ⟨0, 0⟩ ⟨0, 0⟩)).1
    [⟨0, 10, 0, 100, false, false⟩]
    (dragMouseRelease (MPlotDragZoomerTool.mk false true [] [0] QRectF.nullRect)
        [⟨0, 10, 0, 100, false, false⟩]
        (MouseEvent.mk MouseButton.left ⟨20, 0⟩ ⟨20, 0⟩ ⟨10, 0⟩ ⟨10, 0⟩)).2
    (dragMouseRelease
        { (dragMouseRelease (MPlotDragZoomerTool.mk false true [] [0] QRectF.nullRect)
            [⟨0, 10, 0, 100, false, false⟩]
            (MouseEvent.mk MouseButton.left ⟨20, 0⟩ ⟨20, 0⟩ ⟨10, 0⟩ ⟨10, 0⟩)).1 with
          targetAxes_ := [0] }
        (dragMouseRelease (MPlotDragZoomerTool.mk false true [] [0] QRectF.nullRect)
            [⟨0, 10, 0, 100, false, false⟩]
            (MouseEvent.mk MouseButton.left ⟨20, 0⟩ ⟨20, 0⟩ ⟨10, 0⟩ ⟨10, 0⟩)).2
        (MouseEvent.mk MouseButton.right ⟨0, 0⟩ ⟨0, 0⟩ ⟨0, 0⟩ ⟨0, 0⟩)).2
    (MouseEvent.mk MouseButton.left ⟨20, 0⟩ ⟨20, 0⟩ ⟨10, 0⟩ ⟨10, 0⟩)
    (MouseEvent.mk MouseButton.right ⟨0, 0⟩ ⟨0, 0⟩ ⟨0, 0⟩ ⟨0, 0⟩)
    [0]
    (MPlotDragZoomerTool.mk false false [] [0] QRectF.nullRect)
    [⟨0, 10, 0, 100, false, false⟩]
    (MouseEvent.mk MouseButton.right ⟨0, 0⟩ ⟨0, 0⟩ ⟨0, 0⟩ ⟨0, 0⟩)
    rfl (by simp) (by intro i hi; rw [List.mem_singleton] at hi; subst hi; simp)
    rfl rfl rfl rfl
  exact ⟨rfl, h.2.2.1 0 (by simp) (by simp)⟩

/-- Setting one selection flag preserves the number of items. -/
theorem setSelectedFlag_length (items : List MPlotItemState) (i : ℕ) (b : Bool) :
    (setSelectedFlag items i b).length = items.length := by
  rw [setSelectedFlag]
  cases h : items.get? i with
  | none => rfl
  | some a => simp

/-- Setting one selection flag leaves the other items unchanged. -/
theorem setSelectedFlag_get_ne (items : List MPlotItemState) (j i : ℕ) (b : Bool)
    (h : j ≠ i) :
    (setSelectedFlag items j b).get? i = items.get? i := by
  rw [setSelectedFlag]
  cases hj : items.get? j with
  | none => rfl
  | some a =>
    rw [List.get?_eq_getElem?, List.get?_eq_getElem?, List.getElem?_set_ne h]

/-- Setting the selection flag of an occupied slot stores the flag there. -/
theorem setSelectedFlag_get_self (items : List MPlotItemState) (i : ℕ) (b : Bool)
    (a : MPlotItemState) (h : items.get? i = some a) :
    (setSelectedFlag items i b).get? i = some { a with isSelected := b } := by
  have hi : i < items.length := by
    by_contra hc
    rw [List.get?_eq_getElem?, List.getElem?_eq_none (by omega)] at h
    cases h
  rw [setSelectedFlag, h, List.get?_eq_getElem?, List.getElem?_set_self (by simpa using hi)]

/-- Every candidate index of the selector click is a valid item index. -/
theorem selectedPossibilities_sub (items : List MPlotItemState) (hits : List Bool) :
    ∀ si ∈ selectedPossibilities items hits, si < items.length := by
  intro si hsi
  rw [selectedPossibilities] at hsi
  exact List.mem_range.mp (List.mem_filter.mp hsi).1

/-- The round-robin choice picks a member of a non-empty candidate list. -/
theorem chosen_mem (l : List ℕ) (k : ℕ) (h : 0 < l.length) :
    l.getD (k % l.length) 0 ∈ l := by
  rw [List.getD_eq_getElem?_getD, List.getElem?_eq_getElem (Nat.mod_lt k h)]
  exact List.getElem_mem _

/-- A click with no candidate deselects the previously selected item and clears
the selection pointer. -/
theorem selectorMousePress_none_some (t : MPlotPlotSelectorTool)
    (items : List MPlotItemState) (hits : List Bool) (old : ℕ)
    (hposs : selectedPossibilities items hits = [])
    (hold : t.selectedItem_ = some old) :
    selectorMousePress t items hits
      = (⟨none, t.selIndex⟩, setSelectedFlag items old false) := by
  rw [selectorMousePress]
  simp only [hposs, hold, List.length_nil, gt_iff_lt, lt_irrefl, reduceIte]

/-- A click with no candidate and nothing selected changes nothing. -/
theorem selectorMousePress_none_none (t : MPlotPlotSelectorTool)
    (items : List MPlotItemState) (hits : List Bool)
    (hposs : selectedPossibilities items hits = [])
    (hold : t.selectedItem_ = none) :
    selectorMousePress t items hits = (t, items) := by
  rw [selectorMousePress]
  simp only [hposs, hold, List.length_nil, gt_iff_lt, lt_irrefl, reduceIte]
  rw [← hold]

/-- A click choosing a new item deselects the old one, selects the chosen one
and advances the round-robin counter. -/
theorem selectorMousePress_pick (t : MPlotPlotSelectorTool)
    (items : List MPlotItemState) (hits : List Bool) (si : ℕ)
    (hsi : (selectedPossibilities items hits).getD
        (t.selIndex % (selectedPossibilities items hits).length) 0 = si)
    (hlen : 0 < (selectedPossibilities items hits).length)
    (hne : some si ≠ t.selectedItem_) :
    selectorMousePress t items hits
      = (⟨some si, t.selIndex + 1⟩,
         setSelectedFlag
           (match t.selectedItem_ with
            | some old => setSelectedFlag items old false
            | none => items) si true) := by
  rw [selectorMousePress]
  simp only [hsi, hlen, gt_iff_lt, reduceIte, if_pos hne]

/-- A click choosing the already selected item only advances the round-robin
counter. -/
theorem selectorMousePress_same (t : MPlotPlotSelectorTool)
    (items : List MPlotItemState) (hits : List Bool) (si : ℕ)
    (hsi : (selectedPossibilities items hits).getD
        (t.selIndex % (selectedPossibilities items hits).length) 0 = si)
    (hlen : 0 < (selectedPossibilities items hits).length)
    (heq : some si = t.selectedItem_) :
    selectorMousePress t items hits = ({ t with selIndex := t.selIndex + 1 }, items) := by
  rw [selectorMousePress]
  simp only [hsi, hlen, gt_iff_lt, reduceIte]
  rw [← heq]
  simp

/-- An item whose selection flag reads true sits at a valid index. -/
theorem flag_lt (items : List MPlotItemState) (i : ℕ)
    (h : ((items.get? i).getD ⟨false, false⟩).isSelected = true) : i < items.length := by
  by_contra hc
  rw [List.get?_eq_getElem?, List.getElem?_eq_none (by omega)] at h
  cases h

/-- The selection invariant survives one selector mouse press. -/
theorem selectorMousePress_inv (t : MPlotPlotSelectorTool)
    (items : List MPlotItemState) (hits : List Bool) (hinv : SelInv t items) :
    SelInv (selectorMousePress t items hits).1 (selectorMousePress t items hits).2 := by
  by_cases hlen : 0 < (selectedPossibilities items hits).length
  · set si := (selectedPossibilities items hits).getD
      (t.selIndex % (selectedPossibilities items hits).length) 0 with hsidef
    have hsimem : si ∈ selectedPossibilities items hits :=
      chosen_mem _ t.selIndex hlen
    have hsilt : si < items.length := selectedPossibilities_sub items hits si hsimem
    by_cases hne : some si = t.selectedItem_
    · rw [selectorMousePress_same t items hits si rfl hlen hne]
      exact ⟨fun o ho => hinv.1 o ho, hinv.2⟩
    · rw [selectorMousePress_pick t items hits si rfl hlen hne]
      have hitems1len : (match t.selectedItem_ with
          | some old => setSelectedFlag items old false
          | none => items).length = items.length := by
        cases t.selectedItem_ with
        | none => rfl
        | some old => exact setSelectedFlag_length items old false
      have hitems1flag : ∀ i, i ≠ si →
          (((match t.selectedItem_ with
            | some old => setSelectedFlag items old false
            | none => items).get? i).getD ⟨false, false⟩).isSelected = false := by
        intro i hisi
        cases hsel : t.selectedItem_ with
        | none =>
          show ((items.get? i).getD ⟨false, false⟩).isSelected = false
          by_cases hil : i < items.length
          · have := (hinv.2 i hil)
            rw [hsel] at this
            rcases hthis : ((items.get? i).getD ⟨false, false⟩).isSelected with _ | _
            · rfl
            · exact absurd (this.mp hthis) (by simp)
          · rw [List.get?_eq_getElem?, List.getElem?_eq_none (by omega)]
            rfl
        | some old =>
          show (((setSelectedFlag items old false).get? i).getD ⟨false, false⟩).isSelected
            = false
          by_cases hio : old = i
          · subst hio
            have holdlt : old < items.length := hinv.1 old hsel
            obtain ⟨a, ha⟩ : ∃ a, items.get? old = some a :=
              ⟨items.get ⟨old, holdlt⟩,
                by rw [List.get?_eq_getElem?, List.getElem?_eq_getElem holdlt]; rfl⟩
            rw [setSelectedFlag_get_self items old false a ha]
            rfl
          · rw [setSelectedFlag_get_ne items old i false hio]
            by_cases hil : i < items.length
            · have := (hinv.2 i hil)
              rw [hsel] at this
              rcases hthis : ((items.get? i).getD ⟨false, false⟩).isSelected with _ | _
              · rfl
              · have : old = i := by
                  have h2 := this.mp hthis
                  exact Option.some.inj h2
                exact absurd this hio
            · rw [List.get?_eq_getElem?, List.getElem?_eq_none (by omega)]
              rfl
      constructor
      · intro o ho
        have : o = si := (Option.some.inj ho).symm
        subst this
        rw [setSelectedFlag_length, hitems1len]
        exact hsilt
      · intro i hi
        rw [setSelectedFlag_length, hitems1len] at hi
        by_cases hisi : si = i
        · subst hisi
          obtain ⟨a1, ha1⟩ : ∃ a1, (match t.selectedItem_ with
              | some old => setSelectedFlag items old false
              | none => items).get? si = some a1 := by
            have hlt1 : si < (match t.selectedItem_ with
                | some old => setSelectedFlag items old false
                | none => items).length := by rw [hitems1len]; exact hsilt
            exact ⟨_, by rw [List.get?_eq_getElem?, List.getElem?_eq_getElem hlt1]⟩
          rw [setSelectedFlag_get_self _ si true a1 ha1]
          simp
        · rw [setSelectedFlag_get_ne _ si i true hisi, hitems1flag i (fun h => hisi h.symm)]
          simp [hisi]
  · have hposs : selectedPossibilities items hits = [] :=
      List.eq_nil_of_length_eq_zero (by omega)
    cases hsel : t.selectedItem_ with
    | none =>
      rw [selectorMousePress_none_none t items hits hposs hsel]
      exact hinv
    | some old =>
      rw [selectorMousePress_none_some t items hits old hposs hsel]
      have holdlt : old < items.length := hinv.1 old hsel
      constructor
      · intro o ho
        cases ho
      · intro i hi
        rw [setSelectedFlag_length] at hi
        constructor
        · intro hflag
          exfalso
          by_cases hio : old = i
          · subst hio
            obtain ⟨a, ha⟩ : ∃ a, items.get? old = some a :=
              ⟨items.get ⟨old, holdlt⟩,
                by rw [List.get?_eq_getElem?, List.getElem?_eq_getElem holdlt]; rfl⟩
            rw [setSelectedFlag_get_self items old false a ha] at hflag
            cases hflag
          · rw [setSelectedFlag_get_ne items old i false hio] at hflag
            have h2 := (hinv.2 i hi).mp hflag
            rw [hsel] at h2
            exact hio (Option.some.inj h2)
        · intro hcontra
          cases hcontra

/-- C7: after every mouse press handled by MPlotPlotSelectorTool, at most one
plot item is in the selected state; choosing a new item deselects the previous
one before selecting the new one (the selection invariant is preserved); and a
click intersecting no selectable item leaves selectedItem() null with every
item deselected. -/
theorem C7_selector_exclusive (t : MPlotPlotSelectorTool)
    (items : List MPlotItemState) (hits : List Bool) (hinv : SelInv t items) :
    SelInv (selectorMousePress t items hits).1 (selectorMousePress t items hits).2 ∧
    (∀ i j, i ≠ j →
      ¬(((((selectorMousePress t items hits).2.get? i).getD ⟨false, false⟩).isSelected
          = true) ∧
        ((((selectorMousePress t items hits).2.get? j).getD ⟨false, false⟩).isSelected
          = true))) ∧
    (selectedPossibilities items hits = [] →
      (selectorMousePress t items hits).1.selectedItem_ = none ∧
      ∀ i, (((selectorMousePress t items hits).2.get? i).getD ⟨false, false⟩).isSelected
        = false) := by
  have hmain := selectorMousePress_inv t items hits hinv
  refine ⟨hmain, ?_, ?_⟩
  · intro i j hij ⟨h1, h2⟩
    have hi := flag_lt _ i h1
    have hj := flag_lt _ j h2
    have hsi := (hmain.2 i hi).mp h1
    have hsj := (hmain.2 j hj).mp h2
    rw [hsi] at hsj
    exact hij (Option.some.inj hsj)
  · intro hposs
    have hlen : ¬ 0 < (selectedPossibilities items hits).length := by
      rw [hposs]
      simp
    have hselnone : (selectorMousePress t items hits).1.selectedItem_ = none := by
      cases hsel : t.selectedItem_ with
      | none => rw [selectorMousePress_none_none t items hits hposs hsel, hsel]
      | some old => rw [selectorMousePress_none_some t items hits old hposs hsel]
    refine ⟨hselnone, ?_⟩
    intro i
    by_cases hil : i < (selectorMousePress t items hits).2.length
    · rcases hflag : (((selectorMousePress t items hits).2.get? i).getD
          ⟨false, false⟩).isSelected with _ | _
      · rfl
      · have := (hmain.2 i hil).mp hflag
        rw [hselnone] at this
        cases this
    · rw [List.get?_eq_getElem?, List.getElem?_eq_none (by omega)]
      rfl

/-- C7 witness: the theorem applied at a two-item plot where item 1 was
selected and a click hits only selectable item 0. -/
theorem C7_selector_exclusive_witness :
    SelInv (MPlotPlotSelectorTool.mk (some 1) 0)
      [MPlotItemState.mk true false, MPlotItemState.mk true true] ∧
    SelInv (selectorMousePress (MPlotPlotSelectorTool.mk (some 1) 0)
        [MPlotItemState.mk true false, MPlotItemState.mk true true] [true, false]).1
      (selectorMousePress (MPlotPlotSelectorTool.mk (some 1) 0)
        [MPlotItemState.mk true false, MPlotItemState.mk true true] [true, false]).2 := by
  have hinv : SelInv (MPlotPlotSelectorTool.mk (some 1) 0)
      [MPlotItemState.mk true false, MPlotItemState.mk true true] := by
    constructor
    · intro old ho
      simp at ho
      subst ho
      simp
    · intro i hi
      simp at hi
      interval_cases i <;> simp
  exact ⟨hinv, (C7_selector_exclusive (MPlotPlotSelectorTool.mk (some 1) 0)
    [MPlotItemState.mk true false, MPlotItemState.mk true true] [true, false] hinv).1⟩

/-- Folding min never exceeds the initial accumulator. -/
theorem foldl_min_le_init (xs : List ℚ) : ∀ x : ℚ, xs.foldl min x ≤ x := by
  induction xs with
  | nil => intro x; exact le_refl x
  | cons y ys ih =>
    intro x
    exact le_trans (ih (min x y)) (min_le_left x y)

/-- Folding min bounds every list member from below. -/
theorem foldl_min_le_mem (xs : List ℚ) : ∀ (x a : ℚ), a ∈ xs → xs.foldl min x ≤ a := by
  induction xs with
  | nil => intro x a ha; cases ha
  | cons y ys ih =>
    intro x a ha
    rcases List.mem_cons.mp ha with hy | hys
    · subst hy
      exact le_trans (foldl_min_le_init ys (min x a)) (min_le_right x a)
    · exact ih (min x y) a hys

/-- Folding min yields the accumulator or some list member. -/
theorem foldl_min_mem (xs : List ℚ) : ∀ x : ℚ, xs.foldl min x ∈ x :: xs := by
  induction xs with
  | nil => intro x; exact List.mem_singleton.mpr rfl
  | cons y ys ih =>
    intro x
    rcases List.mem_cons.mp (ih (min x y)) with h | h
    · rcases min_choice x y with hx | hy
      · rw [List.foldl_cons, h, hx]
        exact List.mem_cons_self _ _
      · rw [List.foldl_cons, h, hy]
        exact List.mem_cons_of_mem _ (List.mem_cons_self _ _)
    · exact List.mem_cons_of_mem _ (List.mem_cons_of_mem _ h)

/-- Folding max is at least the initial accumulator. -/
theorem foldl_max_ge_init (xs : List ℚ) : ∀ x : ℚ, x ≤ xs.foldl max x := by
  induction xs with
  | nil => intro x; exact le_refl x
  | cons y ys ih =>
    intro x
    exact le_trans (le_max_left x y) (ih (max x y))

/-- Folding max bounds every list member from above. -/
theorem foldl_max_ge_mem (xs : List ℚ) : ∀ (x a : ℚ), a ∈ xs → a ≤ xs.foldl max x := by
  induction xs with
  | nil => intro x a ha; cases ha
  | cons y ys ih =>
    intro x a ha
    rcases List.mem_cons.mp ha with hy | hys
    · subst hy
      exact le_trans (le_max_right x a) (foldl_max_ge_init ys (max x a))
    · exact ih (max x y) a hys

/-- Folding max yields the accumulator or some list member. -/
theorem foldl_max_mem (xs : List ℚ) : ∀ x : ℚ, xs.foldl max x ∈ x :: xs := by
  induction xs with
  | nil => intro x; exact List.mem_singleton.mpr rfl
  | cons y ys ih =>
    intro x
    rcases List.mem_cons.mp (ih (max x y)) with h | h
    · rcases max_choice x y with hx | hy
      · rw [List.foldl_cons, h, hx]
        exact List.mem_cons_self _ _
      · rw [List.foldl_cons, h, hy]
        exact List.mem_cons_of_mem _ (List.mem_cons_self _ _)
    · exact List.mem_cons_of_mem _ (List.mem_cons_of_mem _ h)

/-- listMin bounds every member from below. -/
theorem listMin_le (l : List ℚ) (a : ℚ) (ha : a ∈ l) : listMin l ≤ a := by
  cases l with
  | nil => cases ha
  | cons x xs =>
    rcases List.mem_cons.mp ha with hx | hxs
    · subst hx
      exact foldl_min_le_init xs a
    · exact foldl_min_le_mem xs x a hxs

/-- listMin of a non-empty list is one of its members. -/
theorem listMin_mem (l : List ℚ) (h : l ≠ []) : listMin l ∈ l := by
  cases l with
  | nil => exact absurd rfl h
  | cons x xs => exact foldl_min_mem xs x

/-- listMax bounds every member from above. -/
theorem listMax_ge (l : List ℚ) (a : ℚ) (ha : a ∈ l) : a ≤ listMax l := by
  cases l with
  | nil => cases ha
  | cons x xs =>
    rcases List.mem_cons.mp ha with hx | hxs
    · subst hx
      exact foldl_max_ge_init xs a
    · exact foldl_max_ge_mem xs x a hxs

/-- listMax of a non-empty list is one of its members. -/
theorem listMax_mem (l : List ℚ) (h : l ≠ []) : listMax l ∈ l := by
  cases l with
  | nil => exact absurd rfl h
  | cons x xs => exact foldl_max_mem xs x

/-- A valid getD access is a list member. -/
theorem getD_mem (l : List ℚ) (i : ℕ) (h : i < l.length) : l.getD i 0 ∈ l := by
  rw [List.getD_eq_getElem l 0 h]
  exact List.getElem_mem h

/-- A minimum tracker reads exactly the linear-search minimum. -/
theorem TracksMin.eq_listMin (l : List ℚ) (mi : ℕ) (h : TracksMin l mi) (hne : l ≠ []) :
    l.getD mi 0 = listMin l := by
  apply le_antisymm
  · obtain ⟨k, hk, hkv⟩ := List.mem_iff_getElem.mp (listMin_mem l hne)
    calc l.getD mi 0 ≤ l.getD k 0 := h.2 k hk
    _ = listMin l := by rw [List.getD_eq_getElem l 0 hk, hkv]
  · exact listMin_le l _ (getD_mem l mi h.1)

/-- A maximum tracker reads exactly the linear-search maximum. -/
theorem TracksMax.eq_listMax (l : List ℚ) (ma : ℕ) (h : TracksMax l ma) (hne : l ≠ []) :
    l.getD ma 0 = listMax l := by
  apply le_antisymm
  · exact listMax_ge l _ (getD_mem l ma h.1)
  · obtain ⟨k, hk, hkv⟩ := List.mem_iff_getElem.mp (listMax_mem l hne)
    calc listMax l = l.getD k 0 := by rw [List.getD_eq_getElem l 0 hk, hkv]
    _ ≤ l.getD ma 0 := h.2 k hk

/-- The linear re-search finds a minimum record holder. -/
theorem searchMinIndex_tracks : ∀ l : List ℚ, l ≠ [] → TracksMin l (searchMinIndex l) := by
  intro l
  induction l with
  | nil => intro h; exact absurd rfl h
  | cons x tl ih =>
    intro _
    cases tl with
    | nil =>
      refine ⟨by simp [searchMinIndex], ?_⟩
      intro j hj
      have hj0 : j = 0 := by simp at hj; omega
      subst hj0
      exact le_refl _
    | cons y rest =>
      have htr := ih (by simp)
      have hunf : searchMinIndex (x :: y :: rest)
          = if (y :: rest).getD (searchMinIndex (y :: rest)) 0 < x
            then searchMinIndex (y :: rest) + 1 else 0 := by
        simp only [searchMinIndex]
      rw [TracksMin, hunf]
      by_cases hc : (y :: rest).getD (searchMinIndex (y :: rest)) 0 < x
      · rw [if_pos hc]
        refine ⟨by have := htr.1; simp only [List.length_cons] at *; omega, ?_⟩
        intro j hj
        rw [List.getD_cons_succ]
        cases j with
        | zero =>
          rw [List.getD_cons_zero]
          exact le_of_lt hc
        | succ k =>
          rw [List.getD_cons_succ]
          exact htr.2 k (by simp only [List.length_cons] at *; omega)
      · rw [if_neg hc]
        refine ⟨by simp, ?_⟩
        intro j hj
        rw [List.getD_cons_zero]
        cases j with
        | zero =>
          rw [List.getD_cons_zero]
        | succ k =>
          rw [List.getD_cons_succ]
          exact le_trans (not_lt.mp hc) (htr.2 k (by simp only [List.length_cons] at *; omega))

/-- The linear re-search finds a maximum record holder. -/
theorem searchMaxIndex_tracks : ∀ l : List ℚ, l ≠ [] → TracksMax l (searchMaxIndex l) := by
  intro l
  induction l with
  | nil => intro h; exact absurd rfl h
  | cons x tl ih =>
    intro _
    cases tl with
    | nil =>
      refine ⟨by simp [searchMaxIndex], ?_⟩
      intro j hj
      have hj0 : j = 0 := by simp at hj; omega
      subst hj0
      exact le_refl _
    | cons y rest =>
      have htr := ih (by simp)
      have hunf : searchMaxIndex (x :: y :: rest)
          = if (y :: rest).getD (searchMaxIndex (y :: rest)) 0 > x
            then searchMaxIndex (y :: rest) + 1 else 0 := by
        simp only [searchMaxIndex]
      rw [TracksMax, hunf]
      by_cases hc : (y :: rest).getD (searchMaxIndex (y :: rest)) 0 > x
      · rw [if_pos hc]
        refine ⟨by have := htr.1; simp only [List.length_cons] at *; omega, ?_⟩
        intro j hj
        rw [List.getD_cons_succ]
        cases j with
        | zero =>
          rw [List.getD_cons_zero]
          exact le_of_lt hc
        | succ k =>
          rw [List.getD_cons_succ]
          exact htr.2 k (by simp only [List.length_cons] at *; omega)
      · rw [if_neg hc]
        refine ⟨by simp, ?_⟩
        intro j hj
        rw [List.getD_cons_zero]
        cases j with
        | zero =>
          rw [List.getD_cons_zero]
        | succ k =>
          rw [List.getD_cons_succ]
          exact le_trans (htr.2 k (by simp only [List.length_cons] at *; omega)) (not_lt.mp hc)

/-- Appending a point keeps the minimum tracker a record holder. -/
theorem trackAppend_tracksMin (l : List ℚ) (mi ma : ℕ) (v : ℚ)
    (h : l ≠ [] → TracksMin l mi) :
    TracksMin (trackAppend l mi ma v).1 (trackAppend l mi ma v).2.1 := by
  by_cases hl : l = []
  · subst hl
    refine ⟨by simp [trackAppend], ?_⟩
    intro j hj
    have hj0 : j = 0 := by simp [trackAppend] at hj; omega
    subst hj0
    exact le_refl _
  · have htr := h hl
    have hlen : l.length ≠ 0 := fun hc => hl (List.eq_nil_of_length_eq_zero hc)
    have hunf : trackAppend l mi ma v
        = (l ++ [v], (if v < l.getD mi 0 then l.length else mi),
           (if v > l.getD ma 0 then l.length else ma)) := by
      simp only [trackAppend]
      rw [if_neg (by simp only [List.length_append, List.length_cons, List.length_nil]; omega)]
    rw [hunf]
    show TracksMin (l ++ [v]) (if v < l.getD mi 0 then l.length else mi)
    by_cases hv : v < l.getD mi 0
    · rw [if_pos hv]
      constructor
      · simp only [List.length_append, List.length_cons, List.length_nil]
        omega
      · intro j hj
        rw [List.getD_append_right l [v] 0 l.length (le_refl _)]
        simp only [Nat.sub_self, List.getD_cons_zero]
        rw [List.length_append, List.length_cons, List.length_nil] at hj
        rcases (show j < l.length ∨ j = l.length by omega) with hjl | hje
        · rw [List.getD_append l [v] 0 j hjl]
          exact le_of_lt (lt_of_lt_of_le hv (htr.2 j hjl))
        · subst hje
          rw [List.getD_append_right l [v] 0 l.length (le_refl _)]
          simp
    · rw [if_neg hv]
      constructor
      · have := htr.1
        rw [List.length_append]
        omega
      · intro j hj
        rw [List.getD_append l [v] 0 mi htr.1]
        rw [List.length_append, List.length_cons, List.length_nil] at hj
        rcases (show j < l.length ∨ j = l.length by omega) with hjl | hje
        · rw [List.getD_append l [v] 0 j hjl]
          exact htr.2 j hjl
        · subst hje
          rw [List.getD_append_right l [v] 0 l.length (le_refl _)]
          simp only [Nat.sub_self, List.getD_cons_zero]
          exact not_lt.mp hv

/-- Appending a point keeps the maximum tracker a record holder. -/
theorem trackAppend_tracksMax (l : List ℚ) (mi ma : ℕ) (v : ℚ)
    (h : l ≠ [] → TracksMax l ma) :
    TracksMax (trackAppend l mi ma v).1 (trackAppend l mi ma v).2.2 := by
  by_cases hl : l = []
  · subst hl
    refine ⟨by simp [trackAppend], ?_⟩
    intro j hj
    have hj0 : j = 0 := by simp [trackAppend] at hj; omega
    subst hj0
    exact le_refl _
  · have htr := h hl
    have hlen : l.length ≠ 0 := fun hc => hl (List.eq_nil_of_length_eq_zero hc)
    have hunf : trackAppend l mi ma v
        = (l ++ [v], (if v < l.getD mi 0 then l.length else mi),
           (if v > l.getD ma 0 then l.length else ma)) := by
      simp only [trackAppend]
      rw [if_neg (by simp only [List.length_append, List.length_cons, List.length_nil]; omega)]
    rw [hunf]
    show TracksMax (l ++ [v]) (if v > l.getD ma 0 then l.length else ma)
    by_cases hv : v > l.getD ma 0
    · rw [if_pos hv]
      constructor
      · simp only [List.length_append, List.length_cons, List.length_nil]
        omega
      · intro j hj
        rw [List.getD_append_right l [v] 0 l.length (le_refl _)]
        simp only [Nat.sub_self, List.getD_cons_zero]
        rw [List.length_append, List.length_cons, List.length_nil] at hj
        rcases (show j < l.length ∨ j = l.length by omega) with hjl | hje
        · rw [List.getD_append l [v] 0 j hjl]
          exact le_of_lt (lt_of_le_of_lt (htr.2 j hjl) hv)
        · subst hje
          rw [List.getD_append_right l [v] 0 l.length (le_refl _)]
          simp
    · rw [if_neg hv]
      constructor
      · have := htr.1
        rw [List.length_append]
        omega
      · intro j hj
        rw [List.getD_append l [v] 0 ma htr.1]
        rw [List.length_append, List.length_cons, List.length_nil] at hj
        rcases (show j < l.length ∨ j = l.length by omega) with hjl | hje
        · rw [List.getD_append l [v] 0 j hjl]
          exact htr.2 j hjl
        · subst hje
          rw [List.getD_append_right l [v] 0 l.length (le_refl _)]
          simp only [Nat.sub_self, List.getD_cons_zero]
          exact not_lt.mp hv

/-- Prepending a point keeps the minimum tracker a record holder. -/
theorem trackPrepend_tracksMin (l : List ℚ) (mi ma : ℕ) (v : ℚ)
    (h : l ≠ [] → TracksMin l mi) :
    TracksMin (trackPrepend l mi ma v).1 (trackPrepend l mi ma v).2.1 := by
  by_cases hl : l = []
  · subst hl
    refine ⟨by simp [trackPrepend], ?_⟩
    intro j hj
    have hj0 : j = 0 := by simp [trackPrepend] at hj; omega
    subst hj0
    exact le_refl _
  · have htr := h hl
    have hlen : l.length ≠ 0 := fun hc => hl (List.eq_nil_of_length_eq_zero hc)
    have hunf : trackPrepend l mi ma v
        = (v :: l, (if v < (v :: l).getD (mi + 1) 0 then 0 else mi + 1),
           (if v > (v :: l).getD (ma + 1) 0 then 0 else ma + 1)) := by
      simp only [trackPrepend]
      rw [if_neg (by simp only [List.length_cons]; omega)]
    rw [hunf]
    show TracksMin (v :: l) (if v < (v :: l).getD (mi + 1) 0 then 0 else mi + 1)
    simp only [List.getD_cons_succ]
    by_cases hv : v < l.getD mi 0
    · rw [if_pos hv]
      refine ⟨by simp, ?_⟩
      intro j hj
      rw [List.getD_cons_zero]
      cases j with
      | zero => rw [List.getD_cons_zero]
      | succ k =>
        rw [List.getD_cons_succ]
        exact le_of_lt (lt_of_lt_of_le hv (htr.2 k (by simp only [List.length_cons] at hj; omega)))
    · rw [if_neg hv]
      refine ⟨by have := htr.1; simp only [List.length_cons]; omega, ?_⟩
      intro j hj
      rw [List.getD_cons_succ]
      cases j with
      | zero =>
        rw [List.getD_cons_zero]
        exact not_lt.mp hv
      | succ k =>
        rw [List.getD_cons_succ]
        exact htr.2 k (by simp only [List.length_cons] at hj; omega)

/-- Prepending a point keeps the maximum tracker a record holder. -/
theorem trackPrepend_tracksMax (l : List ℚ) (mi ma : ℕ) (v : ℚ)
    (h : l ≠ [] → TracksMax l ma) :
    TracksMax (trackPrepend l mi ma v).1 (trackPrepend l mi ma v).2.2 := by
  by_cases hl : l = []
  · subst hl
    refine ⟨by simp [trackPrepend], ?_⟩
    intro j hj
    have hj0 : j = 0 := by simp [trackPrepend] at hj; omega
    subst hj0
    exact le_refl _
  · have htr := h hl
    have hlen : l.length ≠ 0 := fun hc => hl (List.eq_nil_of_length_eq_zero hc)
    have hunf : trackPrepend l mi ma v
        = (v :: l, (if v < (v :: l).getD (mi + 1) 0 then 0 else mi + 1),
           (if v > (v :: l).getD (ma + 1) 0 then 0 else ma + 1)) := by
      simp only [trackPrepend]
      rw [if_neg (by simp only [List.length_cons]; omega)]
    rw [hunf]
    show TracksMax (v :: l) (if v > (v :: l).getD (ma + 1) 0 then 0 else ma + 1)
    simp only [List.getD_cons_succ]
    by_cases hv : v > l.getD ma 0
    · rw [if_pos hv]
      refine ⟨by simp, ?_⟩
      intro j hj
      rw [List.getD_cons_zero]
      cases j with
      | zero => rw [List.getD_cons_zero]
      | succ k =>
        rw [List.getD_cons_succ]
        exact le_of_lt (lt_of_le_of_lt (htr.2 k (by simp only [List.length_cons] at hj; omega)) hv)
    · rw [if_neg hv]
      refine ⟨by have := htr.1; simp only [List.length_cons]; omega, ?_⟩
      intro j hj
      rw [List.getD_cons_succ]
      cases j with
      | zero =>
        rw [List.getD_cons_zero]
        exact not_lt.mp hv
      | succ k =>
        rw [List.getD_cons_succ]
        exact htr.2 k (by simp only [List.length_cons] at hj; omega)

/-- Reading a freshly set slot returns the new value. -/
theorem getD_set_self (l : List ℚ) (i : ℕ) (v : ℚ) (h : i < l.length) :
    (l.set i v).getD i 0 = v := by
  rw [List.getD_eq_getElem _ 0 (by simpa using h)]
  exact List.getElem_set_self (by simpa using h)

/-- Reading any other slot of a set list returns the old value. -/
theorem getD_set_ne (l : List ℚ) (i j : ℕ) (v : ℚ) (h : i ≠ j) :
    (l.set i v).getD j 0 = l.getD j 0 := by
  by_cases hj : j < l.length
  · rw [List.getD_eq_getElem _ 0 (by simpa using hj), List.getD_eq_getElem _ 0 hj]
    exact List.getElem_set_ne h _
  · rw [List.getD_eq_default _ 0 (by simp; omega), List.getD_eq_default _ 0 (by omega)]

/-- Removing the front point keeps the minimum tracker a record holder. -/
theorem trackRemoveFront_tracksMin (x : ℚ) (rest : List ℚ) (mi ma : ℕ)
    (htr : TracksMin (x :: rest) mi) (hne : rest ≠ []) :
    TracksMin (trackRemoveFront (x :: rest) mi ma).1
      (trackRemoveFront (x :: rest) mi ma).2.1 := by
  have hunf : trackRemoveFront (x :: rest) mi ma
      = (rest, if mi = 0 then searchMinIndex rest else mi - 1,
         if ma = 0 then searchMaxIndex rest else ma - 1) := by
    simp only [trackRemoveFront]
  rw [hunf]
  show TracksMin rest (if mi = 0 then searchMinIndex rest else mi - 1)
  by_cases hmi : mi = 0
  · rw [if_pos hmi]
    exact searchMinIndex_tracks rest hne
  · rw [if_neg hmi]
    obtain ⟨k, rfl⟩ : ∃ k, mi = k + 1 := ⟨mi - 1, by omega⟩
    have hk : k < rest.length := by
      have := htr.1
      simp only [List.length_cons] at this
      omega
    refine ⟨by simpa using hk, ?_⟩
    intro j hj
    have h2 := htr.2 (j + 1) (by simp only [List.length_cons]; omega)
    rw [List.getD_cons_succ, List.getD_cons_succ] at h2
    simpa using h2

/-- Removing the front point keeps the maximum tracker a record holder. -/
theorem trackRemoveFront_tracksMax (x : ℚ) (rest : List ℚ) (mi ma : ℕ)
    (htr : TracksMax (x :: rest) ma) (hne : rest ≠ []) :
    TracksMax (trackRemoveFront (x :: rest) mi ma).1
      (trackRemoveFront (x :: rest) mi ma).2.2 := by
  have hunf : trackRemoveFront (x :: rest) mi ma
      = (rest, if mi = 0 then searchMinIndex rest else mi - 1,
         if ma = 0 then searchMaxIndex rest else ma - 1) := by
    simp only [trackRemoveFront]
  rw [hunf]
  show TracksMax rest (if ma = 0 then searchMaxIndex rest else ma - 1)
  by_cases hma : ma = 0
  · rw [if_pos hma]
    exact searchMaxIndex_tracks rest hne
  · rw [if_neg hma]
    obtain ⟨k, rfl⟩ : ∃ k, ma = k + 1 := ⟨ma - 1, by omega⟩
    have hk : k < rest.length := by
      have := htr.1
      simp only [List.length_cons] at this
      omega
    refine ⟨by simpa using hk, ?_⟩
    intro j hj
    have h2 := htr.2 (j + 1) (by simp only [List.length_cons]; omega)
    rw [List.getD_cons_succ, List.getD_cons_succ] at h2
    simpa using h2

/-- Removing the back point keeps the minimum tracker a record holder. -/
theorem trackRemoveBack_tracksMin (l : List ℚ) (mi ma : ℕ)
    (hl : l ≠ []) (htr : TracksMin l mi) (hne : l.dropLast ≠ []) :
    TracksMin (trackRemoveBack l mi ma).1 (trackRemoveBack l mi ma).2.1 := by
  obtain ⟨w, l2, rfl⟩ : ∃ w l2, l = w :: l2 := by
    cases l with
    | nil => exact absurd rfl hl
    | cons w l2 => exact ⟨w, l2, rfl⟩
  have hunf : trackRemoveBack (w :: l2) mi ma
      = ((w :: l2).dropLast,
         if mi = (w :: l2).dropLast.length then searchMinIndex ((w :: l2).dropLast) else mi,
         if ma = (w :: l2).dropLast.length then searchMaxIndex ((w :: l2).dropLast) else ma) := by
    simp only [trackRemoveBack]
  rw [hunf]
  show TracksMin ((w :: l2).dropLast)
    (if mi = (w :: l2).dropLast.length then searchMinIndex ((w :: l2).dropLast) else mi)
  by_cases hmi : mi = (w :: l2).dropLast.length
  · rw [if_pos hmi]
    exact searchMinIndex_tracks _ hne
  · rw [if_neg hmi]
    have hlen : (w :: l2).dropLast.length = (w :: l2).length - 1 := List.length_dropLast _
    have hmi2 : mi < (w :: l2).dropLast.length := by
      have := htr.1
      simp only [List.length_cons] at this hlen
      omega
    refine ⟨hmi2, ?_⟩
    intro j hj
    have e1 : ((w :: l2).dropLast).getD mi 0 = (w :: l2).getD mi 0 := by
      rw [List.getD_eq_getElem _ 0 hmi2, List.getD_eq_getElem _ 0 (by
        simp only [List.length_cons] at hlen ⊢
        omega)]
      exact List.getElem_dropLast _ mi hmi2
    have e2 : ((w :: l2).dropLast).getD j 0 = (w :: l2).getD j 0 := by
      rw [List.getD_eq_getElem _ 0 hj, List.getD_eq_getElem _ 0 (by
        simp only [List.length_cons] at hlen hj ⊢
        omega)]
      exact List.getElem_dropLast _ j hj
    rw [e1, e2]
    exact htr.2 j (by simp only [List.length_cons] at hlen hj ⊢; omega)

/-- Removing the back point keeps the maximum tracker a record holder. -/
theorem trackRemoveBack_tracksMax (l : List ℚ) (mi ma : ℕ)
    (hl : l ≠ []) (htr : TracksMax l ma) (hne : l.dropLast ≠ []) :
    TracksMax (trackRemoveBack l mi ma).1 (trackRemoveBack l mi ma).2.2 := by
  obtain ⟨w, l2, rfl⟩ : ∃ w l2, l = w :: l2 := by
    cases l with
    | nil => exact absurd rfl hl
    | cons w l2 => exact ⟨w, l2, rfl⟩
  have hunf : trackRemoveBack (w :: l2) mi ma
      = ((w :: l2).dropLast,
         if mi = (w :: l2).dropLast.length then searchMinIndex ((w :: l2).dropLast) else mi,
         if ma = (w :: l2).dropLast.length then searchMaxIndex ((w :: l2).dropLast) else ma) := by
    simp only [trackRemoveBack]
  rw [hunf]
  show TracksMax ((w :: l2).dropLast)
    (if ma = (w :: l2).dropLast.length then searchMaxIndex ((w :: l2).dropLast) else ma)
  by_cases hma : ma = (w :: l2).dropLast.length
  · rw [if_pos hma]
    exact searchMaxIndex_tracks _ hne
  · rw [if_neg hma]
    have hlen : (w :: l2).dropLast.length = (w :: l2).length - 1 := List.length_dropLast _
    have hma2 : ma < (w :: l2).dropLast.length := by
      have := htr.1
      simp only [List.length_cons] at this hlen
      omega
    refine ⟨hma2, ?_⟩
    intro j hj
    have e1 : ((w :: l2).dropLast).getD ma 0 = (w :: l2).getD ma 0 := by
      rw [List.getD_eq_getElem _ 0 hma2, List.getD_eq_getElem _ 0 (by
        simp only [List.length_cons] at hlen ⊢
        omega)]
      exact List.getElem_dropLast _ ma hma2
    have e2 : ((w :: l2).dropLast).getD j 0 = (w :: l2).getD j 0 := by
      rw [List.getD_eq_getElem _ 0 hj, List.getD_eq_getElem _ 0 (by
        simp only [List.length_cons] at hlen hj ⊢
        omega)]
      exact List.getElem_dropLast _ j hj
    rw [e1, e2]
    exact htr.2 j (by simp only [List.length_cons] at hlen hj ⊢; omega)

/-- The new-record-holder check of the minimum tracker preserves tracking when
the modified slot holds the new value. -/
theorem tracks_after_min_check (l2 : List ℚ) (index : ℕ) (v : ℚ) (m : ℕ)
    (hidx : index < l2.length) (hval : l2.getD index 0 = v)
    (htr2 : TracksMin l2 m) :
    TracksMin l2 (if v < l2.getD m 0 then index else m) := by
  by_cases hv : v < l2.getD m 0
  · rw [if_pos hv]
    refine ⟨hidx, ?_⟩
    intro j hj
    rw [hval]
    exact le_of_lt (lt_of_lt_of_le hv (htr2.2 j hj))
  · rw [if_neg hv]
    exact htr2

/-- The new-record-holder check of the maximum tracker preserves tracking when
the modified slot holds the new value. -/
theorem tracks_after_max_check (l2 : List ℚ) (index : ℕ) (v : ℚ) (m : ℕ)
    (hidx : index < l2.length) (hval : l2.getD index 0 = v)
    (htr2 : TracksMax l2 m) :
    TracksMax l2 (if v > l2.getD m 0 then index else m) := by
  by_cases hv : v > l2.getD m 0
  · rw [if_pos hv]
    refine ⟨hidx, ?_⟩
    intro j hj
    rw [hval]
    exact le_of_lt (lt_of_le_of_lt (htr2.2 j hj) hv)
  · rw [if_neg hv]
    exact htr2

/-- Modifying one value keeps the minimum tracker a record holder. -/
theorem trackSetValue_tracksMin (l : List ℚ) (mi ma index : ℕ) (v : ℚ)
    (h : l ≠ [] → TracksMin l mi) (hl : l ≠ []) :
    TracksMin (trackSetValue l mi ma index v).1 (trackSetValue l mi ma index v).2.1 := by
  have htr := h hl
  by_cases hidx : index < l.length
  · have hunf : trackSetValue l mi ma index v
        = (l.set index v,
           (if v < (l.set index v).getD
               (if index = mi ∧ v > l.getD index 0
                then searchMinIndex (l.set index v) else mi) 0
             then index
             else (if index = mi ∧ v > l.getD index 0
                then searchMinIndex (l.set index v) else mi)),
           (if v > (l.set index v).getD
               (if index = ma ∧ v < l.getD index 0
                then searchMaxIndex (l.set index v) else ma) 0
             then index
             else (if index = ma ∧ v < l.getD index 0
                then searchMaxIndex (l.set index v) else ma))) := by
      simp only [trackSetValue]
      rw [if_pos hidx]
    rw [hunf]
    have hidx2 : index < (l.set index v).length := by simpa using hidx
    have hvset : (l.set index v).getD index 0 = v := getD_set_self l index v hidx
    have hne2 : l.set index v ≠ [] := by
      intro hc
      have hlen0 : (l.set index v).length = 0 := by rw [hc]; rfl
      rw [List.length_set] at hlen0
      omega
    show TracksMin (l.set index v)
      (if v < (l.set index v).getD
          (if index = mi ∧ v > l.getD index 0
           then searchMinIndex (l.set index v) else mi) 0
        then index
        else (if index = mi ∧ v > l.getD index 0
           then searchMinIndex (l.set index v) else mi))
    by_cases hA : index = mi ∧ v > l.getD index 0
    · rw [if_pos hA]
      exact tracks_after_min_check _ index v _ hidx2 hvset
        (searchMinIndex_tracks _ hne2)
    · rw [if_neg hA]
      by_cases hv : v < (l.set index v).getD mi 0
      · rw [if_pos hv]
        by_cases hmi_idx : mi = index
        · exfalso
          rw [hmi_idx, hvset] at hv
          exact lt_irrefl v hv
        · refine ⟨hidx2, ?_⟩
          intro j hj
          rw [hvset]
          by_cases hji : j = index
          · subst hji
            rw [hvset]
          · rw [getD_set_ne l index j v (fun hh => hji hh.symm)]
            have hmieq : (l.set index v).getD mi 0 = l.getD mi 0 :=
              getD_set_ne l index mi v (fun hh => hmi_idx hh.symm)
            rw [hmieq] at hv
            exact le_of_lt (lt_of_lt_of_le hv (htr.2 j (by simpa using hj)))
      · rw [if_neg hv]
        refine ⟨by simpa using htr.1, ?_⟩
        intro j hj
        by_cases hmi_idx : mi = index
        · have hvle : v ≤ l.getD index 0 := by
            rcases not_and_or.mp hA with hc | hc
            · exact absurd hmi_idx.symm hc
            · exact not_lt.mp hc
          rw [hmi_idx, hvset]
          by_cases hji : j = index
          · subst hji
            rw [hvset]
          · rw [getD_set_ne l index j v (fun hh => hji hh.symm)]
            calc v ≤ l.getD index 0 := hvle
            _ = l.getD mi 0 := by rw [hmi_idx]
            _ ≤ l.getD j 0 := htr.2 j (by simpa using hj)
        · have hmieq : (l.set index v).getD mi 0 = l.getD mi 0 :=
            getD_set_ne l index mi v (fun hh => hmi_idx hh.symm)
          rw [hmieq]
          by_cases hji : j = index
          · subst hji
            rw [hvset]
            rw [hmieq] at hv
            exact not_lt.mp hv
          · rw [getD_set_ne l index j v (fun hh => hji hh.symm)]
            exact htr.2 j (by simpa using hj)
  · have hunf : trackSetValue l mi ma index v = (l, mi, ma) := by
      simp only [trackSetValue]
      rw [if_neg hidx]
    rw [hunf]
    exact htr

/-- Modifying one value keeps the maximum tracker a record holder. -/
theorem trackSetValue_tracksMax (l : List ℚ) (mi ma index : ℕ) (v : ℚ)
    (h : l ≠ [] → TracksMax l ma) (hl : l ≠ []) :
    TracksMax (trackSetValue l mi ma index v).1 (trackSetValue l mi ma index v).2.2 := by
  have htr := h hl
  by_cases hidx : index < l.length
  · have hunf : trackSetValue l mi ma index v
        = (l.set index v,
           (if v < (l.set index v).getD
               (if index = mi ∧ v > l.getD index 0
                then searchMinIndex (l.set index v) else mi) 0
             then index
             else (if index = mi ∧ v > l.getD index 0
                then searchMinIndex (l.set index v) else mi)),
           (if v > (l.set index v).getD
               (if index = ma ∧ v < l.getD index 0
                then searchMaxIndex (l.set index v) else ma) 0
             then index
             else (if index = ma ∧ v < l.getD index 0
                then searchMaxIndex (l.set index v) else ma))) := by
      simp only [trackSetValue]
      rw [if_pos hidx]
    rw [hunf]
    have hidx2 : index < (l.set index v).length := by simpa using hidx
    have hvset : (l.set index v).getD index 0 = v := getD_set_self l index v hidx
    have hne2 : l.set index v ≠ [] := by
      intro hc
      have hlen0 : (l.set index v).length = 0 := by rw [hc]; rfl
      rw [List.length_set] at hlen0
      omega
    show TracksMax (l.set index v)
      (if v > (l.set index v).getD
          (if index = ma ∧ v < l.getD index 0
           then searchMaxIndex (l.set index v) else ma) 0
        then index
        else (if index = ma ∧ v < l.getD index 0
           then searchMaxIndex (l.set index v) else ma))
    by_cases hA : index = ma ∧ v < l.getD index 0
    · rw [if_pos hA]
      exact tracks_after_max_check _ index v _ hidx2 hvset
        (searchMaxIndex_tracks _ hne2)
    · rw [if_neg hA]
      by_cases hv : v > (l.set index v).getD ma 0
      · rw [if_pos hv]
        by_cases hma_idx : ma = index
        · exfalso
          rw [hma_idx, hvset] at hv
          exact lt_irrefl v hv
        · refine ⟨hidx2, ?_⟩
          intro j hj
          rw [hvset]
          by_cases hji : j = index
          · subst hji
            rw [hvset]
          · rw [getD_set_ne l index j v (fun hh => hji hh.symm)]
            have hmaeq : (l.set index v).getD ma 0 = l.getD ma 0 :=
              getD_set_ne l index ma v (fun hh => hma_idx hh.symm)
            rw [hmaeq] at hv
            exact le_of_lt (lt_of_le_of_lt (htr.2 j (by simpa using hj)) hv)
      · rw [if_neg hv]
        refine ⟨by simpa using htr.1, ?_⟩
        intro j hj
        by_cases hma_idx : ma = index
        · have hvge : l.getD index 0 ≤ v := by
            rcases not_and_or.mp hA with hc | hc
            · exact absurd hma_idx.symm hc
            · exact not_lt.mp hc
          rw [hma_idx, hvset]
          by_cases hji : j = index
          · subst hji
            rw [hvset]
          · rw [getD_set_ne l index j v (fun hh => hji hh.symm)]
            calc l.getD j 0 ≤ l.getD ma 0 := htr.2 j (by simpa using hj)
            _ = l.getD index 0 := by rw [hma_idx]
            _ ≤ v := hvge
        · have hmaeq : (l.set index v).getD ma 0 = l.getD ma 0 :=
            getD_set_ne l index ma v (fun hh => hma_idx hh.symm)
          rw [hmaeq]
          by_cases hji : j = index
          · subst hji
            rw [hvset]
            rw [hmaeq] at hv
            exact not_lt.mp hv
          · rw [getD_set_ne l index j v (fun hh => hji hh.symm)]
            exact htr.2 j (by simpa using hj)
  · have hunf : trackSetValue l mi ma index v = (l, mi, ma) := by
      simp only [trackSetValue]
      rw [if_neg hidx]
    rw [hunf]
    exact htr

/-- The data part of trackAppend. -/
theorem trackAppend_fst (l : List ℚ) (mi ma : ℕ) (v : ℚ) :
    (trackAppend l mi ma v).1 = l ++ [v] := by
  simp only [trackAppend]
  split <;> rfl

/-- The data part of trackPrepend. -/
theorem trackPrepend_fst (l : List ℚ) (mi ma : ℕ) (v : ℚ) :
    (trackPrepend l mi ma v).1 = v :: l := by
  simp only [trackPrepend]
  split <;> rfl

/-- The data part of trackRemoveFront. -/
theorem trackRemoveFront_fst (l : List ℚ) (mi ma : ℕ) :
    (trackRemoveFront l mi ma).1 = l.tail := by
  cases l with
  | nil => rfl
  | cons x rest => rfl

/-- The data part of trackRemoveBack. -/
theorem trackRemoveBack_fst (l : List ℚ) (mi ma : ℕ) :
    (trackRemoveBack l mi ma).1 = l.dropLast := by
  cases l with
  | nil => rfl
  | cons x rest => rfl

/-- The data part of trackSetValue. -/
theorem trackSetValue_fst (l : List ℚ) (mi ma index : ℕ) (v : ℚ) :
    (trackSetValue l mi ma index v).1
      = if index < l.length then l.set index v else l := by
  simp only [trackSetValue]
  split <;> rfl

/-- Every operation of the realtime model preserves the tracking invariant. -/
theorem applyOp_inv (m : MPlotRealtimeModel) (op : RTOp) (h : m.Inv) :
    (m.applyOp op).Inv := by
  obtain ⟨xv, yv, mxi, mxa, myi, mya⟩ := m
  obtain ⟨hlen, htr⟩ := h
  simp only at hlen htr
  have hxy : yv ≠ [] → xv ≠ [] := by
    intro hy hx
    rw [hx] at hlen
    exact hy (List.eq_nil_of_length_eq_zero hlen.symm)
  cases op with
  | insertPointBack x y =>
    constructor
    · show (trackAppend xv mxi mxa x).1.length = (trackAppend yv myi mya y).1.length
      rw [trackAppend_fst, trackAppend_fst]
      simp [hlen]
    · intro _
      exact ⟨trackAppend_tracksMin xv mxi mxa x (fun hx => (htr hx).1),
        trackAppend_tracksMax xv mxi mxa x (fun hx => (htr hx).2.1),
        trackAppend_tracksMin yv myi mya y (fun hy => (htr (hxy hy)).2.2.1),
        trackAppend_tracksMax yv myi mya y (fun hy => (htr (hxy hy)).2.2.2)⟩
  | insertPointFront x y =>
    constructor
    · show (trackPrepend xv mxi mxa x).1.length = (trackPrepend yv myi mya y).1.length
      rw [trackPrepend_fst, trackPrepend_fst]
      simp [hlen]
    · intro _
      exact ⟨trackPrepend_tracksMin xv mxi mxa x (fun hx => (htr hx).1),
        trackPrepend_tracksMax xv mxi mxa x (fun hx => (htr hx).2.1),
        trackPrepend_tracksMin yv myi mya y (fun hy => (htr (hxy hy)).2.2.1),
        trackPrepend_tracksMax yv myi mya y (fun hy => (htr (hxy hy)).2.2.2)⟩
  | removePointFront =>
    show ((MPlotRealtimeModel.mk xv yv mxi mxa myi mya).removePointFront.2).Inv
    by_cases hx : xv.isEmpty
    · have hchar : (MPlotRealtimeModel.mk xv yv mxi mxa myi mya).removePointFront
          = (false, MPlotRealtimeModel.mk xv yv mxi mxa myi mya) := by
        rw [MPlotRealtimeModel.removePointFront, if_pos hx]
      rw [hchar]
      exact ⟨hlen, htr⟩
    · have hxne : xv ≠ [] := by
        intro hc
        subst hc
        exact hx rfl
      have hyne : yv ≠ [] := by
        intro hc
        rw [hc] at hlen
        exact hxne (List.eq_nil_of_length_eq_zero hlen)
      have hchar : (MPlotRealtimeModel.mk xv yv mxi mxa myi mya).removePointFront
          = (true, MPlotRealtimeModel.mk
              (trackRemoveFront xv mxi mxa).1 (trackRemoveFront yv myi mya).1
              (trackRemoveFront xv mxi mxa).2.1 (trackRemoveFront xv mxi mxa).2.2
              (trackRemoveFront yv myi mya).2.1 (trackRemoveFront yv myi mya).2.2) := by
        rw [MPlotRealtimeModel.removePointFront, if_neg hx]
      rw [hchar]
      obtain ⟨x0, xr, rfl⟩ : ∃ a r, xv = a :: r := by
        cases xv with
        | nil => exact absurd rfl hxne
        | cons a r => exact ⟨a, r, rfl⟩
      obtain ⟨y0, yr, rfl⟩ : ∃ a r, yv = a :: r := by
        cases yv with
        | nil => exact absurd rfl hyne
        | cons a r => exact ⟨a, r, rfl⟩
      have hlen2 : xr.length = yr.length := by
        simp only [List.length_cons] at hlen
        omega
      constructor
      · show (trackRemoveFront (x0 :: xr) mxi mxa).1.length
          = (trackRemoveFront (y0 :: yr) myi mya).1.length
        rw [trackRemoveFront_fst, trackRemoveFront_fst]
        simpa using hlen2
      · intro hne
        have hxrne : xr ≠ [] := by
          intro hc
          apply hne
          show (trackRemoveFront (x0 :: xr) mxi mxa).1 = []
          rw [trackRemoveFront_fst]
          simpa using hc
        have hyrne : yr ≠ [] := by
          intro hc
          rw [hc] at hlen2
          exact hxrne (List.eq_nil_of_length_eq_zero hlen2)
        have h4 := htr hxne
        exact ⟨trackRemoveFront_tracksMin x0 xr mxi mxa h4.1 hxrne,
          trackRemoveFront_tracksMax x0 xr mxi mxa h4.2.1 hxrne,
          trackRemoveFront_tracksMin y0 yr myi mya h4.2.2.1 hyrne,
          trackRemoveFront_tracksMax y0 yr myi mya h4.2.2.2 hyrne⟩
  | removePointBack =>
    show ((MPlotRealtimeModel.mk xv yv mxi mxa myi mya).removePointBack.2).Inv
    by_cases hx : xv.isEmpty
    · have hchar : (MPlotRealtimeModel.mk xv yv mxi mxa myi mya).removePointBack
          = (false, MPlotRealtimeModel.mk xv yv mxi mxa myi mya) := by
        rw [MPlotRealtimeModel.removePointBack, if_pos hx]
      rw [hchar]
      exact ⟨hlen, htr⟩
    · have hxne : xv ≠ [] := by
        intro hc
        subst hc
        exact hx rfl
      have hyne : yv ≠ [] := by
        intro hc
        rw [hc] at hlen
        exact hxne (List.eq_nil_of_length_eq_zero hlen)
      have hchar : (MPlotRealtimeModel.mk xv yv mxi mxa myi mya).removePointBack
          = (true, MPlotRealtimeModel.mk
              (trackRemoveBack xv mxi mxa).1 (trackRemoveBack yv myi mya).1
              (trackRemoveBack xv mxi mxa).2.1 (trackRemoveBack xv mxi mxa).2.2
              (trackRemoveBack yv myi mya).2.1 (trackRemoveBack yv myi mya).2.2) := by
        rw [MPlotRealtimeModel.removePointBack, if_neg hx]
      rw [hchar]
      have hlen2 : xv.dropLast.length = yv.dropLast.length := by
        rw [List.length_dropLast, List.length_dropLast, hlen]
      constructor
      · show (trackRemoveBack xv mxi mxa).1.length = (trackRemoveBack yv myi mya).1.length
        rw [trackRemoveBack_fst, trackRemoveBack_fst]
        exact hlen2
      · intro hne
        have hxrne : xv.dropLast ≠ [] := by
          intro hc
          apply hne
          show (trackRemoveBack xv mxi mxa).1 = []
          rw [trackRemoveBack_fst]
          exact hc
        have hyrne : yv.dropLast ≠ [] := by
          intro hc
          rw [hc] at hlen2
          exact hxrne (List.eq_nil_of_length_eq_zero hlen2)
        have h4 := htr hxne
        exact ⟨trackRemoveBack_tracksMin xv mxi mxa hxne h4.1 hxrne,
          trackRemoveBack_tracksMax xv mxi mxa hxne h4.2.1 hxrne,
          trackRemoveBack_tracksMin yv myi mya hyne h4.2.2.1 hyrne,
          trackRemoveBack_tracksMax yv myi mya hyne h4.2.2.2 hyrne⟩
  | setDataX i v =>
    constructor
    · show (trackSetValue xv mxi mxa i v).1.length = yv.length
      rw [trackSetValue_fst]
      split
      · simpa using hlen
      · exact hlen
    · intro hne
      have hxne : xv ≠ [] := by
        intro hc
        apply hne
        show (trackSetValue xv mxi mxa i v).1 = []
        rw [trackSetValue_fst, hc]
        simp
      have h4 := htr hxne
      exact ⟨trackSetValue_tracksMin xv mxi mxa i v (fun _ => h4.1) hxne,
        trackSetValue_tracksMax xv mxi mxa i v (fun _ => h4.2.1) hxne,
        h4.2.2.1, h4.2.2.2⟩
  | setDataY i v =>
    constructor
    · show xv.length = (trackSetValue yv myi mya i v).1.length
      rw [trackSetValue_fst]
      split
      · simpa using hlen
      · exact hlen
    · intro hne
      have hxne : xv ≠ [] := hne
      have hyne : yv ≠ [] := by
        intro hc
        rw [hc] at hlen
        exact hxne (List.eq_nil_of_length_eq_zero hlen)
      have h4 := htr hxne
      exact ⟨h4.1, h4.2.1,
        trackSetValue_tracksMin yv myi mya i v (fun _ => h4.2.2.1) hyne,
        trackSetValue_tracksMax yv myi mya i v (fun _ => h4.2.2.2) hyne⟩

/-- The empty model satisfies the invariant. -/
theorem empty_inv : MPlotRealtimeModel.empty.Inv :=
  ⟨rfl, fun h => absurd rfl h⟩

/-- Any operation sequence run from the empty model keeps the invariant. -/
theorem runOps_inv (ops : List RTOp) : (MPlotRealtimeModel.runOps ops).Inv := by
  rw [MPlotRealtimeModel.runOps]
  have hfold : ∀ (l : List RTOp) (m : MPlotRealtimeModel), m.Inv →
      (l.foldl MPlotRealtimeModel.applyOp m).Inv := by
    intro l
    induction l with
    | nil => intro m hm; exact hm
    | cons op rest ih =>
      intro m hm
      rw [List.foldl_cons]
      exact ih _ (applyOp_inv m op hm)
  exact hfold ops _ empty_inv

/-- C1: over every sequence of insertPointFront, insertPointBack,
removePointFront, removePointBack and setData operations, the index-tracked
extremes of the realtime model identify the true minimum and maximum stored
values, so that whenever count() > 0, boundingRect() equals
QRectF(minX, minY, maxX-minX, maxY-minY) as computed by a linear search over
all currently stored points. -/
theorem C1_realtime_model_bounds (ops : List RTOp)
    (h : 0 < (MPlotRealtimeModel.runOps ops).count) :
    (MPlotRealtimeModel.runOps ops).minX
      = listMin (MPlotRealtimeModel.runOps ops).xval_ ∧
    (MPlotRealtimeModel.runOps ops).maxX
      = listMax (MPlotRealtimeModel.runOps ops).xval_ ∧
    (MPlotRealtimeModel.runOps ops).minY
      = listMin (MPlotRealtimeModel.runOps ops).yval_ ∧
    (MPlotRealtimeModel.runOps ops).maxY
      = listMax (MPlotRealtimeModel.runOps ops).yval_ ∧
    (MPlotRealtimeModel.runOps ops).boundingRect
      = searchBoundingRect (MPlotRealtimeModel.runOps ops).xval_
          (MPlotRealtimeModel.runOps ops).yval_ := by
  obtain ⟨hlen, htr⟩ := runOps_inv ops
  rw [MPlotRealtimeModel.count] at h
  have hxne : (MPlotRealtimeModel.runOps ops).xval_ ≠ [] := by
    intro hc
    rw [hc] at h
    simp at h
  obtain ⟨t1, t2, t3, t4⟩ := htr hxne
  have e1 : (MPlotRealtimeModel.runOps ops).minX
      = listMin (MPlotRealtimeModel.runOps ops).xval_ :=
    TracksMin.eq_listMin _ _ t1 hxne
  have e2 : (MPlotRealtimeModel.runOps ops).maxX
      = listMax (MPlotRealtimeModel.runOps ops).xval_ :=
    TracksMax.eq_listMax _ _ t2 hxne
  have hyne : (MPlotRealtimeModel.runOps ops).yval_ ≠ [] := by
    intro hc
    rw [hc] at hlen
    exact hxne (List.eq_nil_of_length_eq_zero hlen)
  have e3 : (MPlotRealtimeModel.runOps ops).minY
      = listMin (MPlotRealtimeModel.runOps ops).yval_ :=
    TracksMin.eq_listMin _ _ t3 hyne
  have e4 : (MPlotRealtimeModel.runOps ops).maxY
      = listMax (MPlotRealtimeModel.runOps ops).yval_ :=
    TracksMax.eq_listMax _ _ t4 hyne
  refine ⟨e1, e2, e3, e4, ?_⟩
  rw [MPlotRealtimeModel.boundingRect,
    if_neg (by rw [MPlotRealtimeModel.count]; omega),
    searchBoundingRect, e1, e2, e3, e4]

/-- C1 witness: the theorem applied to a concrete two-operation history. -/
theorem C1_realtime_model_bounds_witness :
    0 < (MPlotRealtimeModel.runOps
        [RTOp.insertPointBack 1 2, RTOp.insertPointFront 3 4]).count ∧
    (MPlotRealtimeModel.runOps
        [RTOp.insertPointBack 1 2, RTOp.insertPointFront 3 4]).boundingRect
      = searchBoundingRect
          (MPlotRealtimeModel.runOps
            [RTOp.insertPointBack 1 2, RTOp.insertPointFront 3 4]).xval_
          (MPlotRealtimeModel.runOps
            [RTOp.insertPointBack 1 2, RTOp.insertPointFront 3 4]).yval_ := by
  have h := C1_realtime_model_bounds
    [RTOp.insertPointBack 1 2, RTOp.insertPointFront 3 4] (by decide)
  exact ⟨by decide, h.2.2.2.2⟩
